import Mathlib

/-!
Shallow embedding of the bipartite-graph-sampling repository
(`bigs`): the `Graph` data structure (`graph.rs`), the `Builder`
validation step (`builder.rs`, `error.rs`) and the sampling engine
(`sampler.rs`), together with proofs of the specified properties.

Sets of the Rust code are `indexmap::IndexSet`: insertion-ordered
sets with append-at-end insertion and swap-remove deletion.  They are
modelled as duplicate-free `List`s.
-/

namespace Bigs

/-- Model of `IndexSet::insert`: appends at the end when the element is
absent; returns the set and whether the element was inserted. -/
def isetInsert {α : Type} [DecidableEq α] (s : List α) (a : α) : List α × Bool :=
  if a ∈ s then (s, false) else (s ++ [a], true)

/-- Model of `IndexSet::remove` (indexmap swap-remove): the slot of the
removed element receives the last element of the set. -/
def swapRemove {α : Type} [DecidableEq α] (s : List α) (a : α) : List α :=
  if a ∈ s then (s.set (s.indexOf a) (s.getLastD a)).dropLast else s

theorem swapRemove_of_not_mem {α : Type} [DecidableEq α] {s : List α} {a : α}
    (h : a ∉ s) : swapRemove s a = s := by
  simp [swapRemove, h]

theorem set_append_cons {α : Type} (u v : List α) (a b : α) :
    (u ++ a :: v).set u.length b = u ++ b :: v := by
  induction u with
  | nil => rfl
  | cons x u ih => simp [List.set, ih]

/-- Swap-removal of a present element is, up to permutation, removal of
one occurrence of that element. -/
theorem swapRemove_perm {α : Type} [DecidableEq α] {s : List α} {a : α} (h : a ∈ s) :
    s.Perm (a :: swapRemove s a) := by
  have hi : s.indexOf a < s.length := List.indexOf_lt_length.mpr h
  have hget : s[s.indexOf a] = a := List.getElem_indexOf hi
  have hdecomp : s = s.take (s.indexOf a) ++ a :: s.drop (s.indexOf a + 1) := by
    conv_lhs => rw [← List.take_append_drop (s.indexOf a) s]
    rw [List.drop_eq_getElem_cons hi, hget]
  have hlen : (s.take (s.indexOf a)).length = s.indexOf a := by
    rw [List.length_take]
    exact Nat.min_eq_left (Nat.le_of_lt hi)
  set u := s.take (s.indexOf a) with hu
  set v := s.drop (s.indexOf a + 1) with hv
  rcases v.eq_nil_or_concat with hnil | ⟨w, b, hw⟩
  · -- the removed element is the last one
    have hs : s = u ++ [a] := by rw [hdecomp, hnil]
    have hlast : s.getLastD a = a := by rw [hs, List.getLastD_concat]
    have hset : s.set (s.indexOf a) (s.getLastD a) = u ++ [a] := by
      rw [hlast, ← hlen]
      conv_lhs => rw [hs]
      exact set_append_cons u [] a a
    have : swapRemove s a = u := by
      rw [swapRemove, if_pos h, hset, List.dropLast_concat]
    rw [this, hs]
    exact List.perm_append_singleton a u
  · -- a later element is swapped into the removed slot
    rw [List.concat_eq_append] at hw
    have hs : s = u ++ a :: (w ++ [b]) := by rw [hdecomp, hw]
    have hlast : s.getLastD a = b := by
      rw [hs, show u ++ a :: (w ++ [b]) = (u ++ a :: w) ++ [b] by simp,
        List.getLastD_concat]
    have hset : s.set (s.indexOf a) (s.getLastD a) = u ++ b :: (w ++ [b]) := by
      rw [hlast, ← hlen]
      conv_lhs => rw [hs]
      exact set_append_cons u (w ++ [b]) a b
    have hrem : swapRemove s a = u ++ b :: w := by
      rw [swapRemove, if_pos h, hset,
        show u ++ b :: (w ++ [b]) = (u ++ b :: w) ++ [b] by simp,
        List.dropLast_concat]
    rw [hrem, hs]
    refine List.Perm.trans List.perm_middle ?_
    exact List.Perm.cons a
      (List.Perm.append_left u (List.perm_append_singleton b w))

theorem swapRemove_length {α : Type} [DecidableEq α] {s : List α} {a : α} (h : a ∈ s) :
    (swapRemove s a).length + 1 = s.length := by
  have := (swapRemove_perm h).length_eq
  simpa [Nat.add_comm] using this.symm

theorem swapRemove_subset {α : Type} [DecidableEq α] {s : List α} {a : α}
    {x : α} (hx : x ∈ swapRemove s a) : x ∈ s := by
  by_cases h : a ∈ s
  · exact (swapRemove_perm h).mem_iff.mpr (List.mem_cons_of_mem a hx)
  · rwa [swapRemove_of_not_mem h] at hx

theorem swapRemove_nodup {α : Type} [DecidableEq α] {s : List α} {a : α}
    (hs : s.Nodup) : (swapRemove s a).Nodup := by
  by_cases h : a ∈ s
  · exact (List.nodup_cons.mp (((swapRemove_perm h).nodup_iff).mp hs)).2
  · rwa [swapRemove_of_not_mem h]

theorem mem_swapRemove_iff {α : Type} [DecidableEq α] {s : List α} {a : α}
    (hs : s.Nodup) (h : a ∈ s) {x : α} :
    x ∈ swapRemove s a ↔ x ∈ s ∧ x ≠ a := by
  have hperm := swapRemove_perm h
  have hnd : (a :: swapRemove s a).Nodup := hperm.nodup_iff.mp hs
  have hna : a ∉ swapRemove s a := (List.nodup_cons.mp hnd).1
  constructor
  · intro hx
    refine ⟨swapRemove_subset hx, ?_⟩
    rintro rfl
    exact hna hx
  · rintro ⟨hxs, hxa⟩
    have := hperm.mem_iff.mp hxs
    rcases List.mem_cons.mp this with rfl | hmem
    · exact absurd rfl hxa
    · exact hmem

theorem countP_swapRemove {α : Type} [DecidableEq α] (p : α → Bool)
    {s : List α} {a : α} (h : a ∈ s) :
    List.countP p s = (if p a then 1 else 0) + List.countP p (swapRemove s a) := by
  have := (swapRemove_perm h).countP_eq p
  rw [this, List.countP_cons]
  omega

theorem countP_isetInsert {α : Type} [DecidableEq α] (p : α → Bool)
    (s : List α) (a : α) (h : a ∉ s) :
    List.countP p (isetInsert s a).1 = List.countP p s + (if p a then 1 else 0) := by
  simp [isetInsert, h, List.countP_append, List.countP_cons]

end Bigs

namespace Bigs

/-- Model of `Edge` (graph.rs): a (variable, constraint) pair of
non-negative integer labels. -/
structure Edge where
  «variable» : Nat
  constraint : Nat
deriving DecidableEq, Repr

/-- Model of `Graph` (graph.rs): two neighbor sequences and the
canonical edge set, each `IndexSet` modelled as a duplicate-free list. -/
structure Graph where
  variable_neighbors : List (List Nat)
  constraint_neighbors : List (List Nat)
  edges : List Edge
deriving DecidableEq, Repr

namespace Graph

/-- Model of `Graph::new`. -/
def new : Graph := ⟨[], [], []⟩

/-- Model of `Graph::contains_edge`. -/
def contains_edge (g : Graph) (e : Edge) : Bool := g.edges.contains e

/-- Model of `Graph::number_of_variables`. -/
def number_of_variables (g : Graph) : Nat := g.variable_neighbors.length

/-- Model of `Graph::number_of_constraints`. -/
def number_of_constraints (g : Graph) : Nat := g.constraint_neighbors.length

/-- Model of `Graph::number_of_edges`. -/
def number_of_edges (g : Graph) : Nat := g.edges.length

/-- Model of `Graph::insert_variable`: grow the variable-neighbor
sequence by the difference when the label is out of bounds, then add the
constraint label to the neighbor set of the variable. -/
def insert_variable (g : Graph) (e : Edge) : Graph :=
  let vn :=
    if g.number_of_variables ≤ e.«variable» then
      g.variable_neighbors ++
        List.replicate (e.«variable» - g.number_of_variables + 1) []
    else g.variable_neighbors
  { g with variable_neighbors :=
      vn.set e.«variable» (isetInsert (vn.getD e.«variable» []) e.constraint).1 }

/-- Model of `Graph::insert_constraint`. -/
def insert_constraint (g : Graph) (e : Edge) : Graph :=
  let cn :=
    if g.number_of_constraints ≤ e.constraint then
      g.constraint_neighbors ++
        List.replicate (e.constraint - g.number_of_constraints + 1) []
    else g.constraint_neighbors
  { g with constraint_neighbors :=
      cn.set e.constraint (isetInsert (cn.getD e.constraint []) e.«variable»).1 }

/-- Model of `Graph::insert_edge`: append to the edge set when absent and
update both neighbor sequences; the boolean reports whether the edge was
inserted. -/
def insert_edge (g : Graph) (e : Edge) : Graph × Bool :=
  if e ∈ g.edges then (g, false)
  else ((({ g with edges := g.edges ++ [e] } : Graph).insert_variable e).insert_constraint e,
        true)

/-- Model of `Graph::remove_edge`: swap-remove from the edge set and from
both neighbor sets when present; the boolean reports whether the edge was
present. -/
def remove_edge (g : Graph) (e : Edge) : Graph × Bool :=
  if e ∈ g.edges then
    ({ variable_neighbors :=
         g.variable_neighbors.set e.«variable»
           (swapRemove (g.variable_neighbors.getD e.«variable» []) e.constraint),
       constraint_neighbors :=
         g.constraint_neighbors.set e.constraint
           (swapRemove (g.constraint_neighbors.getD e.constraint []) e.«variable»),
       edges := swapRemove g.edges e }, true)
  else (g, false)

end Graph

/-- Model of `Sampler` (sampler.rs): degrees and the scaling factor that
derives both node counts, guaranteeing the stub-count balance. -/
structure Sampler where
  variable_degree : Nat
  constraint_degree : Nat
  scaling_factor : Nat
deriving DecidableEq, Repr

namespace Sampler

/-- Model of `Sampler::number_of_variables`. -/
def number_of_variables (s : Sampler) : Nat := s.constraint_degree * s.scaling_factor

/-- Model of `Sampler::number_of_constraints`. -/
def number_of_constraints (s : Sampler) : Nat := s.variable_degree * s.scaling_factor

/-- Model of `Sampler::number_of_edges`. -/
def number_of_edges (s : Sampler) : Nat :=
  s.variable_degree * s.constraint_degree * s.scaling_factor

end Sampler

/-- Model of `Graph::from_sampler`: a graph pre-sized to the node counts of the sampler, with all neighbor sets empty and no edges (capacity hints of
the Rust code do not affect contents). -/
def Graph.from_sampler (s : Sampler) : Graph :=
  { variable_neighbors := List.replicate s.number_of_variables []
    constraint_neighbors := List.replicate s.number_of_constraints []
    edges := [] }

/-- Model of `InvalidParameters` (error.rs): the error value carrying the
four offending parameters. -/
structure InvalidParameters where
  number_of_variables : Nat
  number_of_constraints : Nat
  variable_degree : Nat
  constraint_degree : Nat
deriving DecidableEq, Repr

/-- Model of `Builder` (bigs builder.rs): the four accumulated
parameters, each defaulting to zero. -/
structure Builder where
  variable_degree : Nat := 0
  constraint_degree : Nat := 0
  number_of_variables : Nat := 0
  number_of_constraints : Nat := 0
deriving DecidableEq, Repr

/-- Sampler value produced by the bigs `Builder::build` (its struct
declaration lives in the bigs sampler module; the four fields are exactly
the ones `Builder::build` constructs it from). -/
structure BigsSampler where
  variable_degree : Nat
  constraint_degree : Nat
  number_of_variables : Nat
  number_of_constraints : Nat
deriving DecidableEq, Repr

/-- Model of `Builder::build` (bigs builder.rs): validates the
degree/count balance and returns either the sampler or the recoverable
`InvalidParameters` error value. -/
def Builder.build (b : Builder) : Except InvalidParameters BigsSampler :=
  if b.number_of_variables * b.variable_degree ≠
      b.number_of_constraints * b.constraint_degree then
    .error ⟨b.number_of_variables, b.number_of_constraints,
            b.variable_degree, b.constraint_degree⟩
  else
    .ok ⟨b.variable_degree, b.constraint_degree,
         b.number_of_variables, b.number_of_constraints⟩

end Bigs

namespace Bigs

/-- Model of the injected random source (`rand::Rng`, an out-of-scope
external capability): a sequential stream of raw draws, consumed in
order.  Identical streams model identically seeded generators. -/
def RandomSource : Type := List Nat

instance : DecidableEq RandomSource := inferInstanceAs (DecidableEq (List Nat))

/-- One bounded draw from the random source (model of `gen_range(0..bound)`):
consumes the head of the stream. -/
def draw (r : RandomSource) (bound : Nat) : Nat × RandomSource :=
  (r.headD 0 % bound, r.tail)

/-- Exchange of two positions of a list (model of slice `swap`). -/
def listSwap {α : Type} (l : List α) (i j : Nat) : List α :=
  match l[i]?, l[j]? with
  | some a, some b => (l.set i b).set j a
  | _, _ => l

/-- Fisher-Yates loop body, iterating the position `i` downwards
(model of `SliceRandom::shuffle` of the rand crate). -/
def shuffleGo {α : Type} (l : List α) (r : RandomSource) : Nat → List α × RandomSource
  | 0 => (l, r)
  | i + 1 =>
    let (j, r') := draw r (i + 2)
    shuffleGo (listSwap l (i + 1) j) r' i

/-- Model of `SliceRandom::shuffle`: Fisher-Yates over the whole list,
drawing one value per step from the random source. -/
def shuffle {α : Type} (l : List α) (r : RandomSource) : List α × RandomSource :=
  shuffleGo l r (l.length - 1)

namespace Sample

/-- Model of `Sample::candidate_variables`: each variable label repeated
`variable_degree` times, then shuffled. -/
def candidate_variables (s : Sampler) (r : RandomSource) : List Nat × RandomSource :=
  shuffle ((List.range s.number_of_variables).flatMap
    (fun v => List.replicate s.variable_degree v)) r

/-- Model of `Sample::candidate_constraints`: each constraint label
repeated `constraint_degree` times, then shuffled. -/
def candidate_constraints (s : Sampler) (r : RandomSource) : List Nat × RandomSource :=
  shuffle ((List.range s.number_of_constraints).flatMap
    (fun c => List.replicate s.constraint_degree c)) r

/-- Model of `Sample::candidate_edges`: the two shuffles consume the
random source in sequence, then the lists are zipped into edges. -/
def candidate_edges (s : Sampler) (r : RandomSource) : List Edge × RandomSource :=
  let vsr := candidate_variables s r
  let csr := candidate_constraints s vsr.2
  (((vsr.1).zip csr.1).map (fun p => ⟨p.1, p.2⟩), csr.2)

/-- Model of `Sample::swap`: exchange the far endpoints of two edges. -/
def swap (first_edge second_edge : Edge) : Edge × Edge :=
  (⟨first_edge.«variable», second_edge.constraint⟩,
   ⟨second_edge.«variable», first_edge.constraint⟩)

/-- Model of `Sample::find_edge_to_swap`: first edge of the enumeration of
the graph whose swap with the target produces two edges absent from
the graph. -/
def find_edge_to_swap (target_edge : Edge) (g : Graph) : Option Edge :=
  g.edges.find? (fun e =>
    !g.contains_edge (swap e target_edge).1 && !g.contains_edge (swap e target_edge).2)

/-- Model of `Sample::try_to_swap_edge_and_insert`: on success remove the
found edge and insert both swapped edges; otherwise re-enqueue the
candidate at the back of the queue. -/
def try_to_swap_edge_and_insert (g : Graph) (e : Edge) (q : List Edge) :
    Graph × List Edge :=
  match find_edge_to_swap e g with
  | some edge_to_swap =>
    let g1 := (g.remove_edge edge_to_swap).1
    let se := swap e edge_to_swap
    let g2 := (g1.insert_edge se.1).1
    let g3 := (g2.insert_edge se.2).1
    (g3, q)
  | none => (g, q ++ [e])

/-- One iteration of the placement loop of `Sample::generate`, acting on
the popped candidate edge and the rest of the queue. -/
def generateStep (g : Graph) (e : Edge) (q : List Edge) : Graph × List Edge :=
  if g.contains_edge e then try_to_swap_edge_and_insert g e q
  else ((g.insert_edge e).1, q)

/-- The placement loop of `Sample::generate`, with explicit fuel: `some`
exactly when the candidate queue drains within `fuel` iterations. -/
def generateLoop (fuel : Nat) (g : Graph) (q : List Edge) : Option Graph :=
  match fuel, q with
  | _, [] => some g
  | 0, _ :: _ => none
  | fuel + 1, e :: q =>
    generateLoop fuel (generateStep g e q).1 (generateStep g e q).2

/-- Model of `Sample::generate`: start from the pre-sized graph and run
the placement loop on the candidate queue. -/
def generate (s : Sampler) (r : RandomSource) (fuel : Nat) : Option Graph :=
  generateLoop fuel (Graph.from_sampler s) (candidate_edges s r).1

end Sample

/-- Model of `Sampler::sample_with`: delegate to the sample engine, with
explicit fuel standing for the unbounded Rust loop. -/
def Sampler.sample_with (s : Sampler) (r : RandomSource) (fuel : Nat) : Option Graph :=
  Sample.generate s r fuel

end Bigs

namespace Bigs

theorem mem_isetInsert {α : Type} [DecidableEq α] (s : List α) (a x : α) :
    x ∈ (isetInsert s a).1 ↔ x ∈ s ∨ x = a := by
  by_cases h : a ∈ s
  · simp only [isetInsert, if_pos h]
    exact ⟨Or.inl, fun h' => h'.elim id (fun hx => hx ▸ h)⟩
  · simp [isetInsert, h]

theorem isetInsert_nodup {α : Type} [DecidableEq α] {s : List α} (a : α)
    (hs : s.Nodup) : (isetInsert s a).1.Nodup := by
  by_cases h : a ∈ s
  · simpa [isetInsert, h] using hs
  · simp only [isetInsert, if_neg h]
    rw [List.nodup_append]
    exact ⟨hs, List.nodup_singleton a, by
      intro x hx hmem
      rw [List.mem_singleton] at hmem
      exact h (hmem ▸ hx)⟩

theorem isetInsert_of_not_mem {α : Type} [DecidableEq α] {s : List α} {a : α}
    (h : a ∉ s) : isetInsert s a = (s ++ [a], true) := by
  simp [isetInsert, h]

theorem isetInsert_of_mem {α : Type} [DecidableEq α] {s : List α} {a : α}
    (h : a ∈ s) : isetInsert s a = (s, false) := by
  simp [isetInsert, h]

theorem getD_set_self {α : Type} (l : List α) (i : Nat) (y d : α)
    (h : i < l.length) : (l.set i y).getD i d = y := by
  rw [List.getD_eq_getElem?_getD, List.getElem?_set, if_pos rfl, if_pos h]
  rfl

theorem getD_set_ne {α : Type} (l : List α) {i k : Nat} (y d : α) (h : i ≠ k) :
    (l.set i y).getD k d = l.getD k d := by
  rw [List.getD_eq_getElem?_getD, List.getElem?_set, if_neg h,
    ← List.getD_eq_getElem?_getD]

theorem getD_append_replicate {α : Type} (l : List α) (n i : Nat) (d : α) :
    (l ++ List.replicate n d).getD i d = l.getD i d := by
  rcases Nat.lt_or_ge i l.length with h | h
  · rw [List.getD_eq_getElem?_getD, List.getD_eq_getElem?_getD,
      List.getElem?_append, if_pos h]
  · rw [List.getD_eq_getElem?_getD, List.getD_eq_getElem?_getD,
      List.getElem?_append, if_neg (Nat.not_lt.mpr h), List.getElem?_replicate,
      List.getElem?_eq_none h]
    split <;> rfl

theorem getD_replicate_self {α : Type} (n i : Nat) (d : α) :
    (List.replicate n d).getD i d = d := by
  rw [List.getD_eq_getElem?_getD, List.getElem?_replicate]
  split <;> rfl

/-- Appending one element and swap-removing an element at a position
permute into each other: used to reason about position swaps. -/
theorem set_add_perm {α : Type} [DecidableEq α] (l : List α) (i : Nat) (b : α)
    (h : i < l.length) : (l.set i b ++ [l[i]]).Perm (l ++ [b]) := by
  rw [List.set_eq_take_cons_drop b h]
  conv_rhs => rw [← List.take_append_drop i l, List.drop_eq_getElem_cons h]
  rw [List.perm_iff_count]
  intro x
  simp only [List.count_append, List.count_cons, List.count_nil]
  split_ifs <;> omega

theorem coe_set_add {α : Type} [DecidableEq α] (l : List α) (i : Nat) (b : α)
    (h : i < l.length) :
    ((l.set i b : List α) : Multiset α) + {l[i]} = (l : Multiset α) + {b} := by
  have h2 := Multiset.coe_eq_coe.mpr (set_add_perm l i b h)
  rw [← Multiset.coe_singleton l[i], ← Multiset.coe_singleton b,
    Multiset.coe_add, Multiset.coe_add]
  exact h2

theorem listSwap_perm {α : Type} [DecidableEq α] (l : List α) (i j : Nat) :
    (listSwap l i j).Perm l := by
  unfold listSwap
  cases hi : l[i]? with
  | none => exact List.Perm.refl l
  | some a =>
    cases hj : l[j]? with
    | none => exact List.Perm.refl l
    | some b =>
      obtain ⟨hi', ha⟩ := List.getElem?_eq_some.mp hi
      obtain ⟨hj', hb⟩ := List.getElem?_eq_some.mp hj
      rw [← Multiset.coe_eq_coe]
      have hjset : j < (l.set i b).length := by rwa [List.length_set]
      have e1 := coe_set_add (l.set i b) j a hjset
      have e2 := coe_set_add l i b hi'
      rw [ha] at e2
      have hgb : (l.set i b)[j] = b := by
        rw [List.getElem_set]
        split
        · rfl
        · rw [hb]
      rw [hgb, e2] at e1
      exact add_right_cancel e1

theorem shuffleGo_perm {α : Type} [DecidableEq α] (i : Nat) :
    ∀ (l : List α) (r : RandomSource), (shuffleGo l r i).1.Perm l := by
  induction i with
  | zero => intro l r; exact List.Perm.refl l
  | succ i ih =>
    intro l r
    exact List.Perm.trans (ih _ _) (listSwap_perm l (i + 1) _)

theorem shuffle_perm {α : Type} [DecidableEq α] (l : List α) (r : RandomSource) :
    (shuffle l r).1.Perm l := shuffleGo_perm _ l r

end Bigs

namespace Bigs

/-- Neighbor set of a variable label, as exposed by `Graph::variables`
(out-of-range labels give the empty set). -/
def Graph.varNbrs (g : Graph) (v : Nat) : List Nat := g.variable_neighbors.getD v []

/-- Neighbor set of a constraint label, as exposed by `Graph::constraints`. -/
def Graph.conNbrs (g : Graph) (c : Nat) : List Nat := g.constraint_neighbors.getD c []

theorem insert_variable_edges (g : Graph) (e : Edge) :
    (g.insert_variable e).edges = g.edges := rfl

theorem insert_variable_cons (g : Graph) (e : Edge) :
    (g.insert_variable e).constraint_neighbors = g.constraint_neighbors := rfl

theorem insert_constraint_edges (g : Graph) (e : Edge) :
    (g.insert_constraint e).edges = g.edges := rfl

theorem insert_constraint_vars (g : Graph) (e : Edge) :
    (g.insert_constraint e).variable_neighbors = g.variable_neighbors := rfl

theorem insert_variable_num (g : Graph) (e : Edge) :
    (g.insert_variable e).number_of_variables
      = max g.number_of_variables (e.«variable» + 1) := by
  unfold Graph.insert_variable Graph.number_of_variables
  by_cases hgrow : g.variable_neighbors.length ≤ e.«variable» <;>
    simp only [Graph.number_of_variables, if_pos, if_neg, hgrow, if_true, if_false,
      reduceIte, List.length_set, List.length_append, List.length_replicate] <;>
    omega

theorem insert_constraint_num (g : Graph) (e : Edge) :
    (g.insert_constraint e).number_of_constraints
      = max g.number_of_constraints (e.constraint + 1) := by
  unfold Graph.insert_constraint Graph.number_of_constraints
  by_cases hgrow : g.constraint_neighbors.length ≤ e.constraint <;>
    simp only [Graph.number_of_constraints, if_pos, if_neg, hgrow, if_true, if_false,
      reduceIte, List.length_set, List.length_append, List.length_replicate] <;>
    omega

theorem insert_variable_varNbrs (g : Graph) (e : Edge) (k : Nat) :
    (g.insert_variable e).varNbrs k
      = if k = e.«variable» then (isetInsert (g.varNbrs e.«variable») e.constraint).1
        else g.varNbrs k := by
  unfold Graph.insert_variable Graph.varNbrs
  by_cases hgrow : g.number_of_variables ≤ e.«variable»
  · simp only [if_pos hgrow]
    have hget : ∀ x, (g.variable_neighbors ++
        List.replicate (e.«variable» - g.number_of_variables + 1) []).getD x ([] : List Nat)
        = g.variable_neighbors.getD x [] := fun x => getD_append_replicate _ _ _ _
    have hlen : e.«variable» < (g.variable_neighbors ++
        List.replicate (e.«variable» - g.number_of_variables + 1) []).length := by
      rw [List.length_append, List.length_replicate]
      have : g.variable_neighbors.length = g.number_of_variables := rfl
      omega
    by_cases hk : k = e.«variable»
    · subst hk
      rw [if_pos rfl, hget, getD_set_self _ _ _ _ hlen]
    · rw [if_neg hk, getD_set_ne _ _ _ (fun h => hk h.symm), hget]
  · simp only [if_neg hgrow]
    have hlen : e.«variable» < g.variable_neighbors.length := by
      have : g.variable_neighbors.length = g.number_of_variables := rfl
      omega
    by_cases hk : k = e.«variable»
    · subst hk
      rw [if_pos rfl, getD_set_self _ _ _ _ hlen]
    · rw [if_neg hk, getD_set_ne _ _ _ (fun h => hk h.symm)]

theorem insert_constraint_conNbrs (g : Graph) (e : Edge) (k : Nat) :
    (g.insert_constraint e).conNbrs k
      = if k = e.constraint then (isetInsert (g.conNbrs e.constraint) e.«variable»).1
        else g.conNbrs k := by
  unfold Graph.insert_constraint Graph.conNbrs
  by_cases hgrow : g.number_of_constraints ≤ e.constraint
  · simp only [if_pos hgrow]
    have hget : ∀ x, (g.constraint_neighbors ++
        List.replicate (e.constraint - g.number_of_constraints + 1) []).getD x ([] : List Nat)
        = g.constraint_neighbors.getD x [] := fun x => getD_append_replicate _ _ _ _
    have hlen : e.constraint < (g.constraint_neighbors ++
        List.replicate (e.constraint - g.number_of_constraints + 1) []).length := by
      rw [List.length_append, List.length_replicate]
      have : g.constraint_neighbors.length = g.number_of_constraints := rfl
      omega
    by_cases hk : k = e.constraint
    · subst hk
      rw [if_pos rfl, hget, getD_set_self _ _ _ _ hlen]
    · rw [if_neg hk, getD_set_ne _ _ _ (fun h => hk h.symm), hget]
  · simp only [if_neg hgrow]
    have hlen : e.constraint < g.constraint_neighbors.length := by
      have : g.constraint_neighbors.length = g.number_of_constraints := rfl
      omega
    by_cases hk : k = e.constraint
    · subst hk
      rw [if_pos rfl, getD_set_self _ _ _ _ hlen]
    · rw [if_neg hk, getD_set_ne _ _ _ (fun h => hk h.symm)]

end Bigs

namespace Bigs

theorem insert_edge_of_mem {g : Graph} {e : Edge} (h : e ∈ g.edges) :
    g.insert_edge e = (g, false) := by
  simp [Graph.insert_edge, h]

theorem insert_edge_snd_of_not_mem {g : Graph} {e : Edge} (h : e ∉ g.edges) :
    (g.insert_edge e).2 = true := by
  simp [Graph.insert_edge, h]

theorem insert_edge_edges_of_not_mem {g : Graph} {e : Edge} (h : e ∉ g.edges) :
    (g.insert_edge e).1.edges = g.edges ++ [e] := by
  simp only [Graph.insert_edge, if_neg h]
  rfl

theorem insert_edge_num_vars {g : Graph} {e : Edge} (h : e ∉ g.edges) :
    (g.insert_edge e).1.number_of_variables
      = max g.number_of_variables (e.«variable» + 1) := by
  simp only [Graph.insert_edge, if_neg h]
  have h1 : ∀ (g' : Graph),
      (g'.insert_constraint e).number_of_variables = g'.number_of_variables := by
    intro g'
    unfold Graph.number_of_variables
    rw [insert_constraint_vars]
  rw [h1, insert_variable_num]
  rfl

theorem insert_edge_num_cons {g : Graph} {e : Edge} (h : e ∉ g.edges) :
    (g.insert_edge e).1.number_of_constraints
      = max g.number_of_constraints (e.constraint + 1) := by
  simp only [Graph.insert_edge, if_neg h]
  rw [insert_constraint_num]
  have h1 : ∀ (g' : Graph),
      (g'.insert_variable e).number_of_constraints = g'.number_of_constraints := by
    intro g'
    unfold Graph.number_of_constraints
    rw [insert_variable_cons]
  rw [h1]
  rfl

theorem insert_edge_varNbrs {g : Graph} {e : Edge} (h : e ∉ g.edges) (k : Nat) :
    (g.insert_edge e).1.varNbrs k
      = if k = e.«variable» then (isetInsert (g.varNbrs e.«variable») e.constraint).1
        else g.varNbrs k := by
  simp only [Graph.insert_edge, if_neg h]
  have h1 : ∀ (g' : Graph) (k : Nat), (g'.insert_constraint e).varNbrs k = g'.varNbrs k := by
    intro g' k
    unfold Graph.varNbrs
    rw [insert_constraint_vars]
  rw [h1, insert_variable_varNbrs]
  rfl

theorem insert_edge_conNbrs {g : Graph} {e : Edge} (h : e ∉ g.edges) (k : Nat) :
    (g.insert_edge e).1.conNbrs k
      = if k = e.constraint then (isetInsert (g.conNbrs e.constraint) e.«variable»).1
        else g.conNbrs k := by
  simp only [Graph.insert_edge, if_neg h]
  rw [insert_constraint_conNbrs]
  have h1 : ∀ (g' : Graph) (k : Nat), (g'.insert_variable e).conNbrs k = g'.conNbrs k := by
    intro g' k
    unfold Graph.conNbrs
    rw [insert_variable_cons]
  rw [h1, h1]
  rfl

theorem remove_edge_of_not_mem {g : Graph} {e : Edge} (h : e ∉ g.edges) :
    g.remove_edge e = (g, false) := by
  simp [Graph.remove_edge, h]

theorem remove_edge_snd_of_mem {g : Graph} {e : Edge} (h : e ∈ g.edges) :
    (g.remove_edge e).2 = true := by
  simp [Graph.remove_edge, h]

theorem remove_edge_edges_of_mem {g : Graph} {e : Edge} (h : e ∈ g.edges) :
    (g.remove_edge e).1.edges = swapRemove g.edges e := by
  simp [Graph.remove_edge, h]

theorem remove_edge_num_vars (g : Graph) (e : Edge) :
    (g.remove_edge e).1.number_of_variables = g.number_of_variables := by
  unfold Graph.remove_edge Graph.number_of_variables
  split <;> simp [List.length_set]

theorem remove_edge_num_cons (g : Graph) (e : Edge) :
    (g.remove_edge e).1.number_of_constraints = g.number_of_constraints := by
  unfold Graph.remove_edge Graph.number_of_constraints
  split <;> simp [List.length_set]

theorem remove_edge_varNbrs {g : Graph} {e : Edge} (h : e ∈ g.edges)
    (hb : e.«variable» < g.number_of_variables) (k : Nat) :
    (g.remove_edge e).1.varNbrs k
      = if k = e.«variable» then swapRemove (g.varNbrs e.«variable») e.constraint
        else g.varNbrs k := by
  simp only [Graph.remove_edge, if_pos h, Graph.varNbrs]
  by_cases hk : k = e.«variable»
  · subst hk
    rw [if_pos rfl, getD_set_self _ _ _ _ hb]
  · rw [if_neg hk, getD_set_ne _ _ _ (fun h' => hk h'.symm)]

theorem remove_edge_conNbrs {g : Graph} {e : Edge} (h : e ∈ g.edges)
    (hb : e.constraint < g.number_of_constraints) (k : Nat) :
    (g.remove_edge e).1.conNbrs k
      = if k = e.constraint then swapRemove (g.conNbrs e.constraint) e.«variable»
        else g.conNbrs k := by
  simp only [Graph.remove_edge, if_pos h, Graph.conNbrs]
  by_cases hk : k = e.constraint
  · subst hk
    rw [if_pos rfl, getD_set_self _ _ _ _ hb]
  · rw [if_neg hk, getD_set_ne _ _ _ (fun h' => hk h'.symm)]

theorem contains_edge_iff (g : Graph) (e : Edge) :
    g.contains_edge e = true ↔ e ∈ g.edges := by
  simp [Graph.contains_edge]

end Bigs

namespace Bigs

/-- Well-formedness of a graph: the three structures are mutually
consistent, duplicate-free, and the labels of every edge are within the
bounds of the neighbor sequences. -/
structure Graph.WF (g : Graph) : Prop where
  edges_nodup : g.edges.Nodup
  var_lt : ∀ e ∈ g.edges, e.«variable» < g.number_of_variables
  con_lt : ∀ e ∈ g.edges, e.constraint < g.number_of_constraints
  var_iff : ∀ v c, c ∈ g.varNbrs v ↔ (⟨v, c⟩ : Edge) ∈ g.edges
  con_iff : ∀ v c, v ∈ g.conNbrs c ↔ (⟨v, c⟩ : Edge) ∈ g.edges
  var_nodup : ∀ v, (g.varNbrs v).Nodup
  con_nodup : ∀ c, (g.conNbrs c).Nodup

theorem wf_new : Graph.WF Graph.new := by
  refine ⟨List.nodup_nil, ?_, ?_, ?_, ?_, ?_, ?_⟩ <;>
    simp [Graph.new, Graph.varNbrs, Graph.conNbrs]

theorem wf_from_sampler (s : Sampler) : Graph.WF (Graph.from_sampler s) := by
  refine ⟨List.nodup_nil, ?_, ?_, ?_, ?_, ?_, ?_⟩ <;>
    simp [Graph.from_sampler, Graph.varNbrs, Graph.conNbrs, getD_replicate_self]

theorem wf_insert_edge {g : Graph} (hg : g.WF) (e : Edge) :
    (g.insert_edge e).1.WF := by
  by_cases h : e ∈ g.edges
  · rw [insert_edge_of_mem h]
    exact hg
  · refine ⟨?_, ?_, ?_, ?_, ?_, ?_, ?_⟩
    · rw [insert_edge_edges_of_not_mem h, List.nodup_append]
      exact ⟨hg.edges_nodup, List.nodup_singleton e, by
        intro x hx hmem
        rw [List.mem_singleton] at hmem
        exact h (hmem ▸ hx)⟩
    · intro e' he'
      rw [insert_edge_edges_of_not_mem h, List.mem_append, List.mem_singleton] at he'
      rw [insert_edge_num_vars h]
      rcases he' with he' | rfl
      · exact lt_of_lt_of_le (hg.var_lt e' he') (le_max_left _ _)
      · exact lt_of_lt_of_le (Nat.lt_succ_self _) (le_max_right _ _)
    · intro e' he'
      rw [insert_edge_edges_of_not_mem h, List.mem_append, List.mem_singleton] at he'
      rw [insert_edge_num_cons h]
      rcases he' with he' | rfl
      · exact lt_of_lt_of_le (hg.con_lt e' he') (le_max_left _ _)
      · exact lt_of_lt_of_le (Nat.lt_succ_self _) (le_max_right _ _)
    · intro v c
      rw [insert_edge_varNbrs h, insert_edge_edges_of_not_mem h,
        List.mem_append, List.mem_singleton]
      by_cases hv : v = e.«variable»
      · subst hv
        rw [if_pos rfl, mem_isetInsert, hg.var_iff]
        constructor
        · rintro (hc | rfl)
          · exact Or.inl hc
          · exact Or.inr (by cases e; rfl)
        · rintro (hc | hc)
          · exact Or.inl hc
          · exact Or.inr (by cases e; cases hc; rfl)
      · rw [if_neg hv, hg.var_iff]
        constructor
        · exact Or.inl
        · rintro (hc | hc)
          · exact hc
          · exact absurd (congrArg Edge.variable hc) hv
    · intro v c
      rw [insert_edge_conNbrs h, insert_edge_edges_of_not_mem h,
        List.mem_append, List.mem_singleton]
      by_cases hc' : c = e.constraint
      · subst hc'
        rw [if_pos rfl, mem_isetInsert, hg.con_iff]
        constructor
        · rintro (hv | rfl)
          · exact Or.inl hv
          · exact Or.inr (by cases e; rfl)
        · rintro (hv | hv)
          · exact Or.inl hv
          · exact Or.inr (by cases e; cases hv; rfl)
      · rw [if_neg hc', hg.con_iff]
        constructor
        · exact Or.inl
        · rintro (hv | hv)
          · exact hv
          · exact absurd (congrArg Edge.constraint hv) hc'
    · intro v
      rw [insert_edge_varNbrs h]
      split
      · exact isetInsert_nodup _ (hg.var_nodup _)
      · exact hg.var_nodup v
    · intro c
      rw [insert_edge_conNbrs h]
      split
      · exact isetInsert_nodup _ (hg.con_nodup _)
      · exact hg.con_nodup c

theorem wf_remove_edge {g : Graph} (hg : g.WF) (e : Edge) :
    (g.remove_edge e).1.WF := by
  by_cases h : e ∈ g.edges
  · have hbv := hg.var_lt e h
    have hbc := hg.con_lt e h
    have hcv : e.constraint ∈ g.varNbrs e.«variable» := by
      rw [hg.var_iff]
      cases e
      exact h
    have hvc : e.«variable» ∈ g.conNbrs e.constraint := by
      rw [hg.con_iff]
      cases e
      exact h
    refine ⟨?_, ?_, ?_, ?_, ?_, ?_, ?_⟩
    · rw [remove_edge_edges_of_mem h]
      exact swapRemove_nodup hg.edges_nodup
    · intro e' he'
      rw [remove_edge_edges_of_mem h] at he'
      rw [remove_edge_num_vars]
      exact hg.var_lt e' (swapRemove_subset he')
    · intro e' he'
      rw [remove_edge_edges_of_mem h] at he'
      rw [remove_edge_num_cons]
      exact hg.con_lt e' (swapRemove_subset he')
    · intro v c
      rw [remove_edge_varNbrs h hbv, remove_edge_edges_of_mem h,
        mem_swapRemove_iff hg.edges_nodup h]
      by_cases hv : v = e.«variable»
      · subst hv
        rw [if_pos rfl, mem_swapRemove_iff (hg.var_nodup _) hcv, hg.var_iff]
        constructor
        · rintro ⟨hc, hne⟩
          refine ⟨hc, fun heq => hne ?_⟩
          exact congrArg Edge.constraint heq
        · rintro ⟨hc, hne⟩
          refine ⟨hc, fun heq => hne ?_⟩
          cases e
          cases heq
          rfl
      · rw [if_neg hv, hg.var_iff]
        constructor
        · intro hc
          exact ⟨hc, fun heq => hv (congrArg Edge.variable heq)⟩
        · rintro ⟨hc, _⟩
          exact hc
    · intro v c
      rw [remove_edge_conNbrs h hbc, remove_edge_edges_of_mem h,
        mem_swapRemove_iff hg.edges_nodup h]
      by_cases hc' : c = e.constraint
      · subst hc'
        rw [if_pos rfl, mem_swapRemove_iff (hg.con_nodup _) hvc, hg.con_iff]
        constructor
        · rintro ⟨hv, hne⟩
          refine ⟨hv, fun heq => hne ?_⟩
          exact congrArg Edge.variable heq
        · rintro ⟨hv, hne⟩
          refine ⟨hv, fun heq => hne ?_⟩
          cases e
          cases heq
          rfl
      · rw [if_neg hc', hg.con_iff]
        constructor
        · intro hv
          exact ⟨hv, fun heq => hc' (congrArg Edge.constraint heq)⟩
        · rintro ⟨hv, _⟩
          exact hv
    · intro v
      rw [remove_edge_varNbrs h hbv]
      split
      · exact swapRemove_nodup (hg.var_nodup _)
      · exact hg.var_nodup v
    · intro c
      rw [remove_edge_conNbrs h hbc]
      split
      · exact swapRemove_nodup (hg.con_nodup _)
      · exact hg.con_nodup c
  · rw [remove_edge_of_not_mem h]
    exact hg

/-- Graphs reachable through the public interface: the empty graph or a
pre-sized engine graph, followed by any sequence of edge insertions and
removals. -/
inductive Graph.Reachable : Graph → Prop
  | new : Graph.Reachable Graph.new
  | from_sampler (s : Sampler) : Graph.Reachable (Graph.from_sampler s)
  | insert {g : Graph} (e : Edge) : Graph.Reachable g → Graph.Reachable (g.insert_edge e).1
  | remove {g : Graph} (e : Edge) : Graph.Reachable g → Graph.Reachable (g.remove_edge e).1

theorem wf_of_reachable {g : Graph} (h : g.Reachable) : g.WF := by
  induction h with
  | new => exact wf_new
  | from_sampler s => exact wf_from_sampler s
  | insert e _ ih => exact wf_insert_edge ih e
  | remove e _ ih => exact wf_remove_edge ih e

end Bigs

namespace Bigs

/-- Number of edges of a list that touch the variable label `v`. -/
def countV (l : List Edge) (v : Nat) : Nat := l.countP (fun e => e.«variable» == v)

/-- Number of edges of a list that touch the constraint label `c`. -/
def countC (l : List Edge) (c : Nat) : Nat := l.countP (fun e => e.constraint == c)

theorem count_stubs (n d v : Nat) :
    ((List.range n).flatMap (fun i => List.replicate d i)).count v
      = if v < n then d else 0 := by
  induction n with
  | zero => simp
  | succ n ih =>
    rw [List.range_succ, List.flatMap_append, List.count_append, ih]
    have h1 : (([n] : List Nat).flatMap (fun i => List.replicate d i)).count v
        = if n = v then d else 0 := by
      simp [List.count_replicate]
    rw [h1]
    split_ifs <;> omega

theorem length_stubs (n d : Nat) :
    ((List.range n).flatMap (fun i => List.replicate d i)).length = n * d := by
  induction n with
  | zero => simp
  | succ n ih =>
    rw [List.range_succ, List.flatMap_append, List.length_append, ih]
    simp [Nat.succ_mul]

theorem candidate_variables_length (s : Sampler) (r : RandomSource) :
    (Sample.candidate_variables s r).1.length
      = s.number_of_variables * s.variable_degree := by
  rw [Sample.candidate_variables, (shuffle_perm _ _).length_eq, length_stubs]

theorem candidate_constraints_length (s : Sampler) (r : RandomSource) :
    (Sample.candidate_constraints s r).1.length
      = s.number_of_constraints * s.constraint_degree := by
  rw [Sample.candidate_constraints, (shuffle_perm _ _).length_eq, length_stubs]

theorem sampler_balance (s : Sampler) :
    s.number_of_variables * s.variable_degree
      = s.number_of_constraints * s.constraint_degree := by
  unfold Sampler.number_of_variables Sampler.number_of_constraints
  ring

theorem candidate_variables_count (s : Sampler) (r : RandomSource) (v : Nat) :
    (Sample.candidate_variables s r).1.count v
      = if v < s.number_of_variables then s.variable_degree else 0 := by
  rw [Sample.candidate_variables, (shuffle_perm _ _).count_eq, count_stubs]

theorem candidate_constraints_count (s : Sampler) (r : RandomSource) (c : Nat) :
    (Sample.candidate_constraints s r).1.count c
      = if c < s.number_of_constraints then s.constraint_degree else 0 := by
  rw [Sample.candidate_constraints, (shuffle_perm _ _).count_eq, count_stubs]

theorem candidate_edges_length (s : Sampler) (r : RandomSource) :
    (Sample.candidate_edges s r).1.length = s.number_of_edges := by
  rw [Sample.candidate_edges]
  simp only [List.length_map, List.length_zip, candidate_variables_length,
    candidate_constraints_length]
  rw [← sampler_balance, min_self]
  unfold Sampler.number_of_variables Sampler.number_of_edges
  ring

theorem countV_candidate_edges (s : Sampler) (r : RandomSource) (v : Nat) :
    countV (Sample.candidate_edges s r).1 v
      = if v < s.number_of_variables then s.variable_degree else 0 := by
  rw [Sample.candidate_edges]
  simp only [countV, List.countP_map]
  have hle : (Sample.candidate_variables s r).1.length
      ≤ (Sample.candidate_constraints s (Sample.candidate_variables s r).2).1.length := by
    rw [candidate_variables_length, candidate_constraints_length, sampler_balance]
  have hmap := List.map_fst_zip (Sample.candidate_variables s r).1
    (Sample.candidate_constraints s (Sample.candidate_variables s r).2).1 hle
  have h1 : List.countP
      ((fun e : Edge => e.«variable» == v) ∘ (fun p : Nat × Nat => (⟨p.1, p.2⟩ : Edge)))
      ((Sample.candidate_variables s r).1.zip
        (Sample.candidate_constraints s (Sample.candidate_variables s r).2).1)
      = List.countP (fun x : Nat => x == v)
        (List.map Prod.fst ((Sample.candidate_variables s r).1.zip
          (Sample.candidate_constraints s (Sample.candidate_variables s r).2).1)) := by
    rw [List.countP_map]
    rfl
  rw [h1, hmap, ← List.count_eq_countP, candidate_variables_count]

theorem countC_candidate_edges (s : Sampler) (r : RandomSource) (c : Nat) :
    countC (Sample.candidate_edges s r).1 c
      = if c < s.number_of_constraints then s.constraint_degree else 0 := by
  rw [Sample.candidate_edges]
  simp only [countC, List.countP_map]
  have hle : (Sample.candidate_constraints s (Sample.candidate_variables s r).2).1.length
      ≤ (Sample.candidate_variables s r).1.length := by
    rw [candidate_variables_length, candidate_constraints_length, sampler_balance]
  have hmap := List.map_snd_zip (Sample.candidate_variables s r).1
    (Sample.candidate_constraints s (Sample.candidate_variables s r).2).1 hle
  have h1 : List.countP
      ((fun e : Edge => e.constraint == c) ∘ (fun p : Nat × Nat => (⟨p.1, p.2⟩ : Edge)))
      ((Sample.candidate_variables s r).1.zip
        (Sample.candidate_constraints s (Sample.candidate_variables s r).2).1)
      = List.countP (fun x : Nat => x == c)
        (List.map Prod.snd ((Sample.candidate_variables s r).1.zip
          (Sample.candidate_constraints s (Sample.candidate_variables s r).2).1)) := by
    rw [List.countP_map]
    rfl
  rw [h1, hmap, ← List.count_eq_countP, candidate_constraints_count]

end Bigs

namespace Bigs

theorem countV_cons (e : Edge) (q : List Edge) (v : Nat) :
    countV (e :: q) v = countV q v + (if e.«variable» == v then 1 else 0) := by
  simp [countV, List.countP_cons]

theorem countC_cons (e : Edge) (q : List Edge) (c : Nat) :
    countC (e :: q) c = countC q c + (if e.constraint == c then 1 else 0) := by
  simp [countC, List.countP_cons]

theorem countV_append_single (l : List Edge) (a b v : Nat) :
    countV (l ++ [⟨a, b⟩]) v = countV l v + (if a == v then 1 else 0) := by
  simp [countV, List.countP_append, List.countP_cons]

theorem countC_append_single (l : List Edge) (a b c : Nat) :
    countC (l ++ [⟨a, b⟩]) c = countC l c + (if b == c then 1 else 0) := by
  simp [countC, List.countP_append, List.countP_cons]

theorem countV_swapRemove {l : List Edge} {f : Edge} (h : f ∈ l) (v : Nat) :
    countV l v = (if f.«variable» == v then 1 else 0) + countV (swapRemove l f) v := by
  simpa using countP_swapRemove (fun e => e.«variable» == v) h

theorem countC_swapRemove {l : List Edge} {f : Edge} (h : f ∈ l) (c : Nat) :
    countC l c = (if f.constraint == c then 1 else 0) + countC (swapRemove l f) c := by
  simpa using countP_swapRemove (fun e => e.constraint == c) h

/-- Invariant of the placement loop: the graph is well formed and sized
to the sampler, and graph plus queue jointly carry the full degree
allocation of each node and the full edge count. -/
structure EngineInv (s : Sampler) (g : Graph) (q : List Edge) : Prop where
  wf : g.WF
  vlen : g.number_of_variables = s.number_of_variables
  clen : g.number_of_constraints = s.number_of_constraints
  cntV : ∀ v, countV g.edges v + countV q v
      = if v < s.number_of_variables then s.variable_degree else 0
  cntC : ∀ c, countC g.edges c + countC q c
      = if c < s.number_of_constraints then s.constraint_degree else 0
  total : g.number_of_edges + q.length = s.number_of_edges

theorem EngineInv.queue_var_lt {s : Sampler} {g : Graph} {q : List Edge}
    (inv : EngineInv s g q) {e : Edge} (he : e ∈ q) :
    e.«variable» < s.number_of_variables := by
  by_contra hge
  have h1 := inv.cntV e.«variable»
  rw [if_neg hge] at h1
  have h2 : 0 < countV q e.«variable» :=
    List.countP_pos_iff.mpr ⟨e, he, by simp⟩
  omega

theorem EngineInv.queue_con_lt {s : Sampler} {g : Graph} {q : List Edge}
    (inv : EngineInv s g q) {e : Edge} (he : e ∈ q) :
    e.constraint < s.number_of_constraints := by
  by_contra hge
  have h1 := inv.cntC e.constraint
  rw [if_neg hge] at h1
  have h2 : 0 < countC q e.constraint :=
    List.countP_pos_iff.mpr ⟨e, he, by simp⟩
  omega

theorem engineInv_init (s : Sampler) (r : RandomSource) :
    EngineInv s (Graph.from_sampler s) (Sample.candidate_edges s r).1 := by
  refine ⟨wf_from_sampler s, ?_, ?_, ?_, ?_, ?_⟩
  · simp [Graph.from_sampler, Graph.number_of_variables]
  · simp [Graph.from_sampler, Graph.number_of_constraints]
  · intro v
    rw [show (Graph.from_sampler s).edges = [] from rfl,
      show countV [] v = 0 from rfl, Nat.zero_add, countV_candidate_edges]
  · intro c
    rw [show (Graph.from_sampler s).edges = [] from rfl,
      show countC [] c = 0 from rfl, Nat.zero_add, countC_candidate_edges]
  · rw [show (Graph.from_sampler s).number_of_edges = 0 from rfl, Nat.zero_add,
      candidate_edges_length]

end Bigs


namespace Bigs

theorem engineInv_requeue {s : Sampler} {g : Graph} {e : Edge} {q : List Edge}
    (inv : EngineInv s g (e :: q)) : EngineInv s g (q ++ [e]) := by
  refine ⟨inv.wf, inv.vlen, inv.clen, ?_, ?_, ?_⟩
  · intro v
    have h1 := inv.cntV v
    rw [countV_cons] at h1
    rw [show countV (q ++ [e]) v = countV q v + (if e.«variable» == v then 1 else 0) by
      cases e; exact countV_append_single q _ _ v]
    omega
  · intro c
    have h1 := inv.cntC c
    rw [countC_cons] at h1
    rw [show countC (q ++ [e]) c = countC q c + (if e.constraint == c then 1 else 0) by
      cases e; exact countC_append_single q _ _ c]
    omega
  · have h1 := inv.total
    rw [List.length_cons] at h1
    rw [List.length_append]
    simpa using h1

theorem engineInv_insert {s : Sampler} {g : Graph} {e : Edge} {q : List Edge}
    (inv : EngineInv s g (e :: q)) (hc : e ∉ g.edges) :
    EngineInv s (g.insert_edge e).1 q := by
  have hev : e.«variable» < s.number_of_variables :=
    inv.queue_var_lt (List.mem_cons_self e q)
  have hec : e.constraint < s.number_of_constraints :=
    inv.queue_con_lt (List.mem_cons_self e q)
  refine ⟨wf_insert_edge inv.wf e, ?_, ?_, ?_, ?_, ?_⟩
  · rw [insert_edge_num_vars hc, inv.vlen]
    omega
  · rw [insert_edge_num_cons hc, inv.clen]
    omega
  · intro v
    have h1 := inv.cntV v
    rw [countV_cons] at h1
    rw [show countV (g.insert_edge e).1.edges v
        = countV g.edges v + (if e.«variable» == v then 1 else 0) by
      rw [insert_edge_edges_of_not_mem hc]
      cases e
      exact countV_append_single _ _ _ v]
    omega
  · intro c
    have h1 := inv.cntC c
    rw [countC_cons] at h1
    rw [show countC (g.insert_edge e).1.edges c
        = countC g.edges c + (if e.constraint == c then 1 else 0) by
      rw [insert_edge_edges_of_not_mem hc]
      cases e
      exact countC_append_single _ _ _ c]
    omega
  · have h1 := inv.total
    rw [List.length_cons] at h1
    rw [Graph.number_of_edges, insert_edge_edges_of_not_mem hc, List.length_append]
    rw [Graph.number_of_edges] at h1
    simp only [List.length_singleton]
    omega

theorem engineInv_swap {s : Sampler} {g : Graph} {e f : Edge} {q : List Edge}
    (inv : EngineInv s g (e :: q)) (hc : e ∈ g.edges)
    (hf : Sample.find_edge_to_swap e g = some f) :
    EngineInv s (((g.remove_edge f).1.insert_edge ⟨e.«variable», f.constraint⟩).1.insert_edge
      ⟨f.«variable», e.constraint⟩).1 q := by
  have hev : e.«variable» < s.number_of_variables :=
    inv.queue_var_lt (List.mem_cons_self e q)
  have hec : e.constraint < s.number_of_constraints :=
    inv.queue_con_lt (List.mem_cons_self e q)
  have hfmem : f ∈ g.edges := List.mem_of_find?_eq_some hf
  have hcond := List.find?_some hf
  rw [Bool.and_eq_true, Bool.not_eq_true', Bool.not_eq_true'] at hcond
  obtain ⟨hc1, hc2⟩ := hcond
  have hse : (⟨f.«variable», e.constraint⟩ : Edge) ∉ g.edges := by
    intro hmem
    rw [← contains_edge_iff] at hmem
    rw [show (Sample.swap f e).1 = (⟨f.«variable», e.constraint⟩ : Edge) from rfl] at hc1
    rw [hmem] at hc1
    cases hc1
  have hfe : (⟨e.«variable», f.constraint⟩ : Edge) ∉ g.edges := by
    intro hmem
    rw [← contains_edge_iff] at hmem
    rw [show (Sample.swap f e).2 = (⟨e.«variable», f.constraint⟩ : Edge) from rfl] at hc2
    rw [hmem] at hc2
    cases hc2
  have hfv : f.«variable» < s.number_of_variables := inv.vlen ▸ inv.wf.var_lt f hfmem
  have hfc : f.constraint < s.number_of_constraints := inv.clen ▸ inv.wf.con_lt f hfmem
  have hef : e ≠ f := by
    rintro rfl
    exact hfe (by cases e; exact hc)
  have hg1_edges : (g.remove_edge f).1.edges = swapRemove g.edges f :=
    remove_edge_edges_of_mem hfmem
  have hg1_mem : ∀ x : Edge, x ∈ (g.remove_edge f).1.edges ↔ x ∈ g.edges ∧ x ≠ f := by
    intro x
    rw [hg1_edges]
    exact mem_swapRemove_iff inv.wf.edges_nodup hfmem
  have hfe1 : (⟨e.«variable», f.constraint⟩ : Edge) ∉ (g.remove_edge f).1.edges := by
    rw [hg1_mem]
    rintro ⟨hmem, -⟩
    exact hfe hmem
  have hg2_edges : ((g.remove_edge f).1.insert_edge ⟨e.«variable», f.constraint⟩).1.edges
      = (g.remove_edge f).1.edges ++ [⟨e.«variable», f.constraint⟩] :=
    insert_edge_edges_of_not_mem hfe1
  have hfese : (⟨f.«variable», e.constraint⟩ : Edge) ≠ (⟨e.«variable», f.constraint⟩ : Edge) := by
    intro heq
    injection heq with h1 h2
    exact hef (by cases e; cases f; simp_all)
  have hse2 : (⟨f.«variable», e.constraint⟩ : Edge)
      ∉ ((g.remove_edge f).1.insert_edge ⟨e.«variable», f.constraint⟩).1.edges := by
    rw [hg2_edges, List.mem_append, List.mem_singleton]
    rintro (hmem | heq)
    · exact hse ((hg1_mem _).mp hmem).1
    · exact hfese heq
  have hg3_edges : (((g.remove_edge f).1.insert_edge ⟨e.«variable», f.constraint⟩).1.insert_edge
        ⟨f.«variable», e.constraint⟩).1.edges
      = ((g.remove_edge f).1.insert_edge ⟨e.«variable», f.constraint⟩).1.edges
        ++ [⟨f.«variable», e.constraint⟩] :=
    insert_edge_edges_of_not_mem hse2
  have hg1v : (g.remove_edge f).1.number_of_variables = s.number_of_variables := by
    rw [remove_edge_num_vars, inv.vlen]
  have hg1c : (g.remove_edge f).1.number_of_constraints = s.number_of_constraints := by
    rw [remove_edge_num_cons, inv.clen]
  have hg2v : ((g.remove_edge f).1.insert_edge
      ⟨e.«variable», f.constraint⟩).1.number_of_variables = s.number_of_variables := by
    rw [insert_edge_num_vars hfe1, hg1v]
    dsimp only
    omega
  have hg2c : ((g.remove_edge f).1.insert_edge
      ⟨e.«variable», f.constraint⟩).1.number_of_constraints = s.number_of_constraints := by
    rw [insert_edge_num_cons hfe1, hg1c]
    dsimp only
    omega
  refine ⟨wf_insert_edge (wf_insert_edge (wf_remove_edge inv.wf f) _) _, ?_, ?_, ?_, ?_, ?_⟩
  · rw [insert_edge_num_vars hse2, hg2v]
    dsimp only
    omega
  · rw [insert_edge_num_cons hse2, hg2c]
    dsimp only
    omega
  · intro v
    have h1 := inv.cntV v
    rw [countV_cons] at h1
    have h2 : countV g.edges v
        = (if f.«variable» == v then 1 else 0) + countV (g.remove_edge f).1.edges v := by
      rw [hg1_edges]
      exact countV_swapRemove hfmem v
    have h3 : countV (((g.remove_edge f).1.insert_edge
          ⟨e.«variable», f.constraint⟩).1.insert_edge ⟨f.«variable», e.constraint⟩).1.edges v
        = countV (g.remove_edge f).1.edges v
          + (if e.«variable» == v then 1 else 0) + (if f.«variable» == v then 1 else 0) := by
      rw [hg3_edges, hg2_edges, countV_append_single, countV_append_single]
    rw [h3]
    omega
  · intro c
    have h1 := inv.cntC c
    rw [countC_cons] at h1
    have h2 : countC g.edges c
        = (if f.constraint == c then 1 else 0) + countC (g.remove_edge f).1.edges c := by
      rw [hg1_edges]
      exact countC_swapRemove hfmem c
    have h3 : countC (((g.remove_edge f).1.insert_edge
          ⟨e.«variable», f.constraint⟩).1.insert_edge ⟨f.«variable», e.constraint⟩).1.edges c
        = countC (g.remove_edge f).1.edges c
          + (if f.constraint == c then 1 else 0) + (if e.constraint == c then 1 else 0) := by
      rw [hg3_edges, hg2_edges, countC_append_single, countC_append_single]
    rw [h3]
    omega
  · have h1 := inv.total
    rw [List.length_cons] at h1
    have h2 : (g.remove_edge f).1.edges.length + 1 = g.edges.length := by
      rw [hg1_edges]
      exact swapRemove_length hfmem
    rw [Graph.number_of_edges, hg3_edges, hg2_edges, List.length_append, List.length_append]
    rw [Graph.number_of_edges] at h1
    simp only [List.length_singleton]
    omega

theorem engineInv_step {s : Sampler} {g : Graph} {e : Edge} {q : List Edge}
    (inv : EngineInv s g (e :: q)) :
    EngineInv s (Sample.generateStep g e q).1 (Sample.generateStep g e q).2 := by
  by_cases hc : e ∈ g.edges
  · have hcb : g.contains_edge e = true := (contains_edge_iff g e).mpr hc
    cases hf : Sample.find_edge_to_swap e g with
    | none =>
      have hstep : Sample.generateStep g e q = (g, q ++ [e]) := by
        simp [Sample.generateStep, hcb, Sample.try_to_swap_edge_and_insert, hf]
      rw [hstep]
      exact engineInv_requeue inv
    | some f =>
      have hstep : Sample.generateStep g e q
          = ((((g.remove_edge f).1.insert_edge ⟨e.«variable», f.constraint⟩).1.insert_edge
              ⟨f.«variable», e.constraint⟩).1, q) := by
        simp [Sample.generateStep, hcb, Sample.try_to_swap_edge_and_insert, hf, Sample.swap]
      rw [hstep]
      exact engineInv_swap inv hc hf
  · have hcb : g.contains_edge e = false := by
      rw [← Bool.not_eq_true, contains_edge_iff]
      exact hc
    have hstep : Sample.generateStep g e q = ((g.insert_edge e).1, q) := by
      simp [Sample.generateStep, hcb]
    rw [hstep]
    exact engineInv_insert inv hc

end Bigs

namespace Bigs

theorem engineInv_loop {s : Sampler} :
    ∀ (fuel : Nat) (g : Graph) (q : List Edge) (gfin : Graph),
      EngineInv s g q → Sample.generateLoop fuel g q = some gfin →
      EngineInv s gfin [] := by
  intro fuel
  induction fuel with
  | zero =>
    intro g q gfin inv h
    cases q with
    | nil =>
      cases h
      exact inv
    | cons e q => exact absurd h (by simp [Sample.generateLoop])
  | succ fuel ih =>
    intro g q gfin inv h
    cases q with
    | nil =>
      cases h
      exact inv
    | cons e q =>
      rw [Sample.generateLoop] at h
      exact ih _ _ _ (engineInv_step inv) h

/-- In a well-formed graph, the degree of a variable node equals the
number of edges touching it. -/
theorem degree_eq_countV {g : Graph} (hg : g.WF) (v : Nat) :
    (g.varNbrs v).length = countV g.edges v := by
  have hinj : Function.Injective (fun c => (⟨v, c⟩ : Edge)) := by
    intro a b hab
    injection hab
  have hnd1 : ((g.varNbrs v).map (fun c => (⟨v, c⟩ : Edge))).Nodup :=
    (hg.var_nodup v).map hinj
  have hnd2 : (g.edges.filter (fun e => e.«variable» == v)).Nodup :=
    hg.edges_nodup.filter _
  have hperm : ((g.varNbrs v).map (fun c => (⟨v, c⟩ : Edge))).Perm
      (g.edges.filter (fun e => e.«variable» == v)) := by
    rw [List.perm_ext_iff_of_nodup hnd1 hnd2]
    intro x
    rw [List.mem_map, List.mem_filter]
    constructor
    · rintro ⟨c, hc, rfl⟩
      exact ⟨(hg.var_iff v c).mp hc, by simp⟩
    · rintro ⟨hx, hxv⟩
      refine ⟨x.constraint, ?_, ?_⟩
      · rw [hg.var_iff]
        have hv : x.«variable» = v := by simpa using hxv
        rw [← hv]
        cases x
        exact hx
      · have hv : x.«variable» = v := by simpa using hxv
        rw [← hv]
  have hlen := hperm.length_eq
  rw [List.length_map] at hlen
  rw [hlen, countV, List.countP_eq_length_filter]

/-- In a well-formed graph, the degree of a constraint node equals the
number of edges touching it. -/
theorem degree_eq_countC {g : Graph} (hg : g.WF) (c : Nat) :
    (g.conNbrs c).length = countC g.edges c := by
  have hinj : Function.Injective (fun v => (⟨v, c⟩ : Edge)) := by
    intro a b hab
    injection hab
  have hnd1 : ((g.conNbrs c).map (fun v => (⟨v, c⟩ : Edge))).Nodup :=
    (hg.con_nodup c).map hinj
  have hnd2 : (g.edges.filter (fun e => e.constraint == c)).Nodup :=
    hg.edges_nodup.filter _
  have hperm : ((g.conNbrs c).map (fun v => (⟨v, c⟩ : Edge))).Perm
      (g.edges.filter (fun e => e.constraint == c)) := by
    rw [List.perm_ext_iff_of_nodup hnd1 hnd2]
    intro x
    rw [List.mem_map, List.mem_filter]
    constructor
    · rintro ⟨v, hv, rfl⟩
      exact ⟨(hg.con_iff v c).mp hv, by simp⟩
    · rintro ⟨hx, hxc⟩
      refine ⟨x.«variable», ?_, ?_⟩
      · rw [hg.con_iff]
        have hc : x.constraint = c := by simpa using hxc
        rw [← hc]
        cases x
        exact hx
      · have hc : x.constraint = c := by simpa using hxc
        rw [← hc]
  have hlen := hperm.length_eq
  rw [List.length_map] at hlen
  rw [hlen, countC, List.countP_eq_length_filter]

end Bigs

namespace Bigs

/-- C1: for every Sampler and random source, a completed `sample_with`
call returns a graph in which every variable node has degree exactly
`variable_degree`, every constraint node has degree exactly
`constraint_degree`, and the edge collection enumerates each edge at
most once. -/
theorem c1_sample_with_regular (s : Sampler) (r : RandomSource) (fuel : Nat) (g : Graph)
    (h : s.sample_with r fuel = some g) :
    (∀ v, v < g.number_of_variables → (g.varNbrs v).length = s.variable_degree)
    ∧ (∀ c, c < g.number_of_constraints → (g.conNbrs c).length = s.constraint_degree)
    ∧ g.edges.Nodup := by
  have hinv : EngineInv s g [] :=
    engineInv_loop fuel (Graph.from_sampler s) (Sample.candidate_edges s r).1 g
      (engineInv_init s r) h
  refine ⟨?_, ?_, hinv.wf.edges_nodup⟩
  · intro v hv
    rw [degree_eq_countV hinv.wf]
    have h1 := hinv.cntV v
    rw [show countV ([] : List Edge) v = 0 from rfl] at h1
    rw [hinv.vlen] at hv
    rw [if_pos hv] at h1
    omega
  · intro c hc
    rw [degree_eq_countC hinv.wf]
    have h1 := hinv.cntC c
    rw [show countC ([] : List Edge) c = 0 from rfl] at h1
    rw [hinv.clen] at hc
    rw [if_pos hc] at h1
    omega

/-- Witness for C1: a concrete completed run. -/
theorem c1_sample_with_regular_witness :
    Sampler.sample_with ⟨1, 1, 1⟩ [] 3 = some (⟨[[0]], [[0]], [⟨0, 0⟩]⟩ : Graph)
    ∧ ((∀ v, v < (⟨[[0]], [[0]], [⟨0, 0⟩]⟩ : Graph).number_of_variables →
          ((⟨[[0]], [[0]], [⟨0, 0⟩]⟩ : Graph).varNbrs v).length
            = (⟨1, 1, 1⟩ : Sampler).variable_degree)
        ∧ (∀ c, c < (⟨[[0]], [[0]], [⟨0, 0⟩]⟩ : Graph).number_of_constraints →
          ((⟨[[0]], [[0]], [⟨0, 0⟩]⟩ : Graph).conNbrs c).length
            = (⟨1, 1, 1⟩ : Sampler).constraint_degree)
        ∧ (⟨[[0]], [[0]], [⟨0, 0⟩]⟩ : Graph).edges.Nodup) :=
  ⟨rfl, c1_sample_with_regular ⟨1, 1, 1⟩ [] 3 ⟨[[0]], [[0]], [⟨0, 0⟩]⟩ rfl⟩

/-- C2 counterexample: for the sampler with `variable_degree = 1`,
`constraint_degree = 2`, `scaling_factor = 1` (two variables, one
constraint), a completed run yields a graph with two edges, while
`variable_degree * number_of_constraints = 1` and
`constraint_degree × number_of_variables = 4`: both product formulas of the spec differ from the actual edge count. -/
theorem c2_counterexample :
    Sampler.sample_with ⟨1, 2, 1⟩ [] 10
        = some (⟨[[0], [0]], [[1, 0]], [⟨1, 0⟩, ⟨0, 0⟩]⟩ : Graph)
    ∧ (⟨[[0], [0]], [[1, 0]], [⟨1, 0⟩, ⟨0, 0⟩]⟩ : Graph).number_of_edges = 2
    ∧ (⟨1, 2, 1⟩ : Sampler).variable_degree
        * (⟨1, 2, 1⟩ : Sampler).number_of_constraints = 1
    ∧ (⟨1, 2, 1⟩ : Sampler).constraint_degree
        * (⟨1, 2, 1⟩ : Sampler).number_of_variables = 4 :=
  ⟨rfl, rfl, rfl, rfl⟩

/-- C2 amended: the number of edges of a completed run equals
`variable_degree × number_of_variables` (equivalently
`constraint_degree × number_of_constraints`, which is `number_of_edges` of the Sampler). -/
theorem c2_sample_with_edge_count (s : Sampler) (r : RandomSource) (fuel : Nat) (g : Graph)
    (h : s.sample_with r fuel = some g) :
    g.number_of_edges = s.number_of_edges
    ∧ g.number_of_edges = s.variable_degree * s.number_of_variables
    ∧ g.number_of_edges = s.constraint_degree * s.number_of_constraints := by
  have hinv : EngineInv s g [] :=
    engineInv_loop fuel (Graph.from_sampler s) (Sample.candidate_edges s r).1 g
      (engineInv_init s r) h
  have h1 := hinv.total
  rw [List.length_nil] at h1
  have h2 : g.number_of_edges = s.number_of_edges := by omega
  refine ⟨h2, ?_, ?_⟩ <;> rw [h2] <;>
    simp only [Sampler.number_of_edges, Sampler.number_of_variables,
      Sampler.number_of_constraints] <;> ring

/-- Witness for the amended C2: a concrete completed run. -/
theorem c2_sample_with_edge_count_witness :
    Sampler.sample_with ⟨1, 2, 1⟩ [] 10
        = some (⟨[[0], [0]], [[1, 0]], [⟨1, 0⟩, ⟨0, 0⟩]⟩ : Graph)
    ∧ ((⟨[[0], [0]], [[1, 0]], [⟨1, 0⟩, ⟨0, 0⟩]⟩ : Graph).number_of_edges
          = (⟨1, 2, 1⟩ : Sampler).number_of_edges
        ∧ (⟨[[0], [0]], [[1, 0]], [⟨1, 0⟩, ⟨0, 0⟩]⟩ : Graph).number_of_edges
          = (⟨1, 2, 1⟩ : Sampler).variable_degree
              * (⟨1, 2, 1⟩ : Sampler).number_of_variables
        ∧ (⟨[[0], [0]], [[1, 0]], [⟨1, 0⟩, ⟨0, 0⟩]⟩ : Graph).number_of_edges
          = (⟨1, 2, 1⟩ : Sampler).constraint_degree
              * (⟨1, 2, 1⟩ : Sampler).number_of_constraints) :=
  ⟨rfl, c2_sample_with_edge_count ⟨1, 2, 1⟩ [] 10
    ⟨[[0], [0]], [[1, 0]], [⟨1, 0⟩, ⟨0, 0⟩]⟩ rfl⟩

/-- C3: two random sources with identical internal state drive
`sample_with` to element-for-element equal graphs (all randomness is
drawn from the injected source, so the run is a pure function of it). -/
theorem c3_sample_with_deterministic (s : Sampler) (r₁ r₂ : RandomSource) (fuel : Nat)
    (h : r₁ = r₂) (g₁ g₂ : Graph) (h₁ : s.sample_with r₁ fuel = some g₁)
    (h₂ : s.sample_with r₂ fuel = some g₂) :
    g₁.edges = g₂.edges ∧ g₁ = g₂ := by
  subst h
  rw [h₁] at h₂
  injection h₂ with h3
  exact ⟨by rw [h3], h3⟩

/-- Witness for C3 at a concrete sampler, source and fuel. -/
theorem c3_sample_with_deterministic_witness :
    ([] : RandomSource) = ([] : RandomSource)
    ∧ Sampler.sample_with ⟨1, 1, 1⟩ [] 3 = some (⟨[[0]], [[0]], [⟨0, 0⟩]⟩ : Graph)
    ∧ ((⟨[[0]], [[0]], [⟨0, 0⟩]⟩ : Graph).edges = (⟨[[0]], [[0]], [⟨0, 0⟩]⟩ : Graph).edges
        ∧ (⟨[[0]], [[0]], [⟨0, 0⟩]⟩ : Graph) = (⟨[[0]], [[0]], [⟨0, 0⟩]⟩ : Graph)) :=
  ⟨rfl, rfl, c3_sample_with_deterministic ⟨1, 1, 1⟩ [] [] 3 rfl
    ⟨[[0]], [[0]], [⟨0, 0⟩]⟩ ⟨[[0]], [[0]], [⟨0, 0⟩]⟩ rfl rfl⟩

/-- C4: `Builder::build` succeeds exactly when
`number_of_variables × variable_degree = number_of_constraints ×
constraint_degree`; on violation it returns the recoverable
`InvalidParameters` value carrying all four offending parameters (the
model is a total function into `Except`, so no panic or abort is
possible). -/
theorem c4_build_validates (b : Builder) :
    ((∃ smp, b.build = Except.ok smp)
        ↔ b.number_of_variables * b.variable_degree
            = b.number_of_constraints * b.constraint_degree)
    ∧ b.build = (if b.number_of_variables * b.variable_degree
            = b.number_of_constraints * b.constraint_degree
        then Except.ok ⟨b.variable_degree, b.constraint_degree,
              b.number_of_variables, b.number_of_constraints⟩
        else Except.error ⟨b.number_of_variables, b.number_of_constraints,
              b.variable_degree, b.constraint_degree⟩) := by
  by_cases h : b.number_of_variables * b.variable_degree
      = b.number_of_constraints * b.constraint_degree
  · have hb : b.build = Except.ok ⟨b.variable_degree, b.constraint_degree,
        b.number_of_variables, b.number_of_constraints⟩ := by
      unfold Builder.build
      rw [if_neg (not_not_intro h)]
    rw [hb, if_pos h]
    exact ⟨⟨fun _ => h, fun _ => ⟨_, rfl⟩⟩, rfl⟩
  · have hb : b.build = Except.error ⟨b.number_of_variables, b.number_of_constraints,
        b.variable_degree, b.constraint_degree⟩ := by
      unfold Builder.build
      rw [if_pos h]
    rw [hb, if_neg h]
    refine ⟨⟨?_, fun h' => absurd h' h⟩, rfl⟩
    rintro ⟨smp, hsmp⟩
    simp at hsmp

/-- Witness for C4 at the failing and succeeding parameter sets of the spec. -/
theorem c4_build_validates_witness :
    Builder.build ⟨3, 2, 10, 10⟩
      = Except.error ⟨10, 10, 3, 2⟩
    ∧ Builder.build ⟨4, 5, 10, 8⟩
      = Except.ok ⟨4, 5, 10, 8⟩ :=
  ⟨(c4_build_validates ⟨3, 2, 10, 10⟩).2.trans (by rfl),
   (c4_build_validates ⟨4, 5, 10, 8⟩).2.trans (by rfl)⟩

/-- C5: in every graph reachable through the public interface, an edge is
in the edge set exactly when its constraint label is a neighbor of its
variable node, exactly when its variable label is a neighbor of its
constraint node. -/
theorem c5_membership_invariant {g : Graph} (hr : g.Reachable) (e : Edge) :
    (e ∈ g.edges ↔ e.constraint ∈ g.varNbrs e.«variable»)
    ∧ (e ∈ g.edges ↔ e.«variable» ∈ g.conNbrs e.constraint) := by
  have hwf := wf_of_reachable hr
  constructor
  · rw [hwf.var_iff]
  · rw [hwf.con_iff]

/-- Witness for C5 at a concrete reachable graph. -/
theorem c5_membership_invariant_witness :
    (Graph.new.insert_edge ⟨0, 0⟩).1.Reachable
    ∧ (((⟨0, 0⟩ : Edge) ∈ (Graph.new.insert_edge ⟨0, 0⟩).1.edges
          ↔ (0 : Nat) ∈ (Graph.new.insert_edge ⟨0, 0⟩).1.varNbrs 0)
        ∧ ((⟨0, 0⟩ : Edge) ∈ (Graph.new.insert_edge ⟨0, 0⟩).1.edges
          ↔ (0 : Nat) ∈ (Graph.new.insert_edge ⟨0, 0⟩).1.conNbrs 0)) :=
  ⟨Graph.Reachable.insert ⟨0, 0⟩ Graph.Reachable.new,
    c5_membership_invariant (Graph.Reachable.insert ⟨0, 0⟩ Graph.Reachable.new) ⟨0, 0⟩⟩

end Bigs

namespace Bigs

/-- C6: on a collision, the engine selects the first edge of the enumeration of the graph
whose two swapped edges are both absent, removes it and
inserts both swapped edges; when no such edge exists the candidate is
re-enqueued unchanged at the back of the queue. -/
theorem c6_collision_first_fit (g : Graph) (e : Edge) (q : List Edge)
    (hc : g.contains_edge e = true) :
    (∀ f, Sample.find_edge_to_swap e g = some f →
      f ∈ g.edges
      ∧ g.contains_edge ⟨e.«variable», f.constraint⟩ = false
      ∧ g.contains_edge ⟨f.«variable», e.constraint⟩ = false
      ∧ (∃ l₁ l₂, g.edges = l₁ ++ f :: l₂
          ∧ ∀ f2 ∈ l₁, g.contains_edge ⟨e.«variable», f2.constraint⟩ = true
              ∨ g.contains_edge ⟨f2.«variable», e.constraint⟩ = true)
      ∧ Sample.generateStep g e q
          = ((((g.remove_edge f).1.insert_edge ⟨e.«variable», f.constraint⟩).1.insert_edge
              ⟨f.«variable», e.constraint⟩).1, q))
    ∧ (Sample.find_edge_to_swap e g = none →
        (∀ f ∈ g.edges, g.contains_edge ⟨e.«variable», f.constraint⟩ = true
            ∨ g.contains_edge ⟨f.«variable», e.constraint⟩ = true)
        ∧ Sample.generateStep g e q = (g, q ++ [e])) := by
  have hfail : ∀ f2 : Edge,
      (!g.contains_edge (Sample.swap f2 e).1 && !g.contains_edge (Sample.swap f2 e).2) = false →
      g.contains_edge ⟨e.«variable», f2.constraint⟩ = true
        ∨ g.contains_edge ⟨f2.«variable», e.constraint⟩ = true := by
    intro f2 hp
    rw [show (Sample.swap f2 e).1 = (⟨f2.«variable», e.constraint⟩ : Edge) from rfl,
      show (Sample.swap f2 e).2 = (⟨e.«variable», f2.constraint⟩ : Edge) from rfl] at hp
    cases h1 : g.contains_edge ⟨f2.«variable», e.constraint⟩
    · cases h2 : g.contains_edge ⟨e.«variable», f2.constraint⟩
      · rw [h1, h2] at hp
        simp at hp
      · exact Or.inl rfl
    · exact Or.inr rfl
  constructor
  · intro f hf
    have hstep : Sample.generateStep g e q
        = ((((g.remove_edge f).1.insert_edge ⟨e.«variable», f.constraint⟩).1.insert_edge
            ⟨f.«variable», e.constraint⟩).1, q) := by
      simp [Sample.generateStep, hc, Sample.try_to_swap_edge_and_insert, hf, Sample.swap]
    have hf' := hf
    rw [Sample.find_edge_to_swap, List.find?_eq_some] at hf'
    obtain ⟨hpf, l₁, l₂, hdecomp, hprev⟩ := hf'
    rw [Bool.and_eq_true, Bool.not_eq_true', Bool.not_eq_true'] at hpf
    obtain ⟨hp1, hp2⟩ := hpf
    rw [show (Sample.swap f e).1 = (⟨f.«variable», e.constraint⟩ : Edge) from rfl] at hp1
    rw [show (Sample.swap f e).2 = (⟨e.«variable», f.constraint⟩ : Edge) from rfl] at hp2
    refine ⟨?_, hp2, hp1, ⟨l₁, l₂, hdecomp, ?_⟩, hstep⟩
    · rw [hdecomp]
      exact List.mem_append_right _ (List.mem_cons_self f l₂)
    · intro f2 hf1
      apply hfail
      have h1 := hprev f2 hf1
      rw [Bool.not_eq_eq_eq_not, Bool.not_true] at h1
      exact h1
  · intro hf
    have hstep : Sample.generateStep g e q = (g, q ++ [e]) := by
      simp [Sample.generateStep, hc, Sample.try_to_swap_edge_and_insert, hf]
    have hf' := hf
    rw [Sample.find_edge_to_swap, List.find?_eq_none] at hf'
    refine ⟨?_, hstep⟩
    intro f hmem
    apply hfail
    have h1 := hf' f hmem
    revert h1
    cases (!g.contains_edge (Sample.swap f e).1 && !g.contains_edge (Sample.swap f e).2) <;>
      simp

/-- Witness for C6: a concrete collision resolved by a swap. -/
theorem c6_collision_first_fit_witness :
    (⟨[[0], [1]], [[0], [1]], [⟨0, 0⟩, ⟨1, 1⟩]⟩ : Graph).contains_edge ⟨0, 0⟩ = true
    ∧ ((∀ f, Sample.find_edge_to_swap ⟨0, 0⟩ (⟨[[0], [1]], [[0], [1]], [⟨0, 0⟩, ⟨1, 1⟩]⟩ : Graph)
            = some f →
          f ∈ (⟨[[0], [1]], [[0], [1]], [⟨0, 0⟩, ⟨1, 1⟩]⟩ : Graph).edges
          ∧ (⟨[[0], [1]], [[0], [1]], [⟨0, 0⟩, ⟨1, 1⟩]⟩ : Graph).contains_edge
              ⟨(⟨0, 0⟩ : Edge).«variable», f.constraint⟩ = false
          ∧ (⟨[[0], [1]], [[0], [1]], [⟨0, 0⟩, ⟨1, 1⟩]⟩ : Graph).contains_edge
              ⟨f.«variable», (⟨0, 0⟩ : Edge).constraint⟩ = false
          ∧ (∃ l₁ l₂, (⟨[[0], [1]], [[0], [1]], [⟨0, 0⟩, ⟨1, 1⟩]⟩ : Graph).edges
                = l₁ ++ f :: l₂
              ∧ ∀ f2 ∈ l₁, (⟨[[0], [1]], [[0], [1]], [⟨0, 0⟩, ⟨1, 1⟩]⟩ : Graph).contains_edge
                    ⟨(⟨0, 0⟩ : Edge).«variable», f2.constraint⟩ = true
                  ∨ (⟨[[0], [1]], [[0], [1]], [⟨0, 0⟩, ⟨1, 1⟩]⟩ : Graph).contains_edge
                    ⟨f2.«variable», (⟨0, 0⟩ : Edge).constraint⟩ = true)
          ∧ Sample.generateStep (⟨[[0], [1]], [[0], [1]], [⟨0, 0⟩, ⟨1, 1⟩]⟩ : Graph) ⟨0, 0⟩ []
              = (((((⟨[[0], [1]], [[0], [1]], [⟨0, 0⟩, ⟨1, 1⟩]⟩ : Graph).remove_edge f).1.insert_edge
                  ⟨(⟨0, 0⟩ : Edge).«variable», f.constraint⟩).1.insert_edge
                  ⟨f.«variable», (⟨0, 0⟩ : Edge).constraint⟩).1, []))
        ∧ (Sample.find_edge_to_swap ⟨0, 0⟩ (⟨[[0], [1]], [[0], [1]], [⟨0, 0⟩, ⟨1, 1⟩]⟩ : Graph)
              = none →
            (∀ f ∈ (⟨[[0], [1]], [[0], [1]], [⟨0, 0⟩, ⟨1, 1⟩]⟩ : Graph).edges,
              (⟨[[0], [1]], [[0], [1]], [⟨0, 0⟩, ⟨1, 1⟩]⟩ : Graph).contains_edge
                  ⟨(⟨0, 0⟩ : Edge).«variable», f.constraint⟩ = true
                ∨ (⟨[[0], [1]], [[0], [1]], [⟨0, 0⟩, ⟨1, 1⟩]⟩ : Graph).contains_edge
                  ⟨f.«variable», (⟨0, 0⟩ : Edge).constraint⟩ = true)
            ∧ Sample.generateStep (⟨[[0], [1]], [[0], [1]], [⟨0, 0⟩, ⟨1, 1⟩]⟩ : Graph) ⟨0, 0⟩ []
                = ((⟨[[0], [1]], [[0], [1]], [⟨0, 0⟩, ⟨1, 1⟩]⟩ : Graph), [] ++ [⟨0, 0⟩]))) :=
  ⟨rfl, c6_collision_first_fit ⟨[[0], [1]], [[0], [1]], [⟨0, 0⟩, ⟨1, 1⟩]⟩ ⟨0, 0⟩ [] rfl⟩

/-- C7: when a collision is resolved by a swap, the two swapped edges
are absent from the graph, distinct from each other and from the removed
edge, so removing one edge and inserting two strictly increases the edge
count by one. -/
theorem c7_swap_increases (g : Graph) (e f : Edge)
    (hc : g.contains_edge e = true) (hf : Sample.find_edge_to_swap e g = some f) :
    (⟨e.«variable», f.constraint⟩ : Edge) ∉ g.edges
    ∧ (⟨f.«variable», e.constraint⟩ : Edge) ∉ g.edges
    ∧ (⟨e.«variable», f.constraint⟩ : Edge) ≠ (⟨f.«variable», e.constraint⟩ : Edge)
    ∧ (⟨e.«variable», f.constraint⟩ : Edge) ≠ f
    ∧ (⟨f.«variable», e.constraint⟩ : Edge) ≠ f
    ∧ (((g.remove_edge f).1.insert_edge ⟨e.«variable», f.constraint⟩).1.insert_edge
        ⟨f.«variable», e.constraint⟩).1.number_of_edges = g.number_of_edges + 1 := by
  have hce : e ∈ g.edges := (contains_edge_iff g e).mp hc
  have hfmem : f ∈ g.edges := List.mem_of_find?_eq_some hf
  have hcond := List.find?_some hf
  rw [Bool.and_eq_true, Bool.not_eq_true', Bool.not_eq_true'] at hcond
  obtain ⟨hc1, hc2⟩ := hcond
  have hse : (⟨f.«variable», e.constraint⟩ : Edge) ∉ g.edges := by
    intro hmem
    rw [← contains_edge_iff] at hmem
    rw [show (Sample.swap f e).1 = (⟨f.«variable», e.constraint⟩ : Edge) from rfl] at hc1
    rw [hmem] at hc1
    cases hc1
  have hfe : (⟨e.«variable», f.constraint⟩ : Edge) ∉ g.edges := by
    intro hmem
    rw [← contains_edge_iff] at hmem
    rw [show (Sample.swap f e).2 = (⟨e.«variable», f.constraint⟩ : Edge) from rfl] at hc2
    rw [hmem] at hc2
    cases hc2
  have hef : e ≠ f := by
    rintro rfl
    exact hfe (by cases e; exact hce)
  have hfese : (⟨e.«variable», f.constraint⟩ : Edge) ≠ (⟨f.«variable», e.constraint⟩ : Edge) := by
    intro heq
    injection heq with h1 h2
    exact hef (by cases e; cases f; simp_all)
  have hfe_ne_f : (⟨e.«variable», f.constraint⟩ : Edge) ≠ f := fun heq => hfe (heq ▸ hfmem)
  have hse_ne_f : (⟨f.«variable», e.constraint⟩ : Edge) ≠ f := fun heq => hse (heq ▸ hfmem)
  have hg1_edges : (g.remove_edge f).1.edges = swapRemove g.edges f :=
    remove_edge_edges_of_mem hfmem
  have hfe1 : (⟨e.«variable», f.constraint⟩ : Edge) ∉ (g.remove_edge f).1.edges := by
    intro hmem
    rw [hg1_edges] at hmem
    exact hfe (swapRemove_subset hmem)
  have hg2_edges : ((g.remove_edge f).1.insert_edge ⟨e.«variable», f.constraint⟩).1.edges
      = (g.remove_edge f).1.edges ++ [⟨e.«variable», f.constraint⟩] :=
    insert_edge_edges_of_not_mem hfe1
  have hse2 : (⟨f.«variable», e.constraint⟩ : Edge)
      ∉ ((g.remove_edge f).1.insert_edge ⟨e.«variable», f.constraint⟩).1.edges := by
    rw [hg2_edges]
    intro hmem
    rcases List.mem_append.mp hmem with h1 | h1
    · rw [hg1_edges] at h1
      exact hse (swapRemove_subset h1)
    · exact hfese (List.mem_singleton.mp h1).symm
  have hg3_edges : (((g.remove_edge f).1.insert_edge ⟨e.«variable», f.constraint⟩).1.insert_edge
        ⟨f.«variable», e.constraint⟩).1.edges
      = ((g.remove_edge f).1.insert_edge ⟨e.«variable», f.constraint⟩).1.edges
        ++ [⟨f.«variable», e.constraint⟩] :=
    insert_edge_edges_of_not_mem hse2
  have hlen : (g.remove_edge f).1.edges.length + 1 = g.edges.length := by
    rw [hg1_edges]
    exact swapRemove_length hfmem
  refine ⟨hfe, hse, hfese, hfe_ne_f, hse_ne_f, ?_⟩
  rw [Graph.number_of_edges, Graph.number_of_edges, hg3_edges, hg2_edges,
    List.length_append, List.length_append]
  simp only [List.length_singleton]
  omega

/-- Witness for C7 at a concrete collision. -/
theorem c7_swap_increases_witness :
    (⟨[[0], [1]], [[0], [1]], [⟨0, 0⟩, ⟨1, 1⟩]⟩ : Graph).contains_edge ⟨0, 0⟩ = true
    ∧ Sample.find_edge_to_swap ⟨0, 0⟩ (⟨[[0], [1]], [[0], [1]], [⟨0, 0⟩, ⟨1, 1⟩]⟩ : Graph)
        = some ⟨1, 1⟩
    ∧ ((⟨0, 1⟩ : Edge) ∉ (⟨[[0], [1]], [[0], [1]], [⟨0, 0⟩, ⟨1, 1⟩]⟩ : Graph).edges
        ∧ (⟨1, 0⟩ : Edge) ∉ (⟨[[0], [1]], [[0], [1]], [⟨0, 0⟩, ⟨1, 1⟩]⟩ : Graph).edges
        ∧ (⟨0, 1⟩ : Edge) ≠ (⟨1, 0⟩ : Edge)
        ∧ (⟨0, 1⟩ : Edge) ≠ (⟨1, 1⟩ : Edge)
        ∧ (⟨1, 0⟩ : Edge) ≠ (⟨1, 1⟩ : Edge)
        ∧ ((((⟨[[0], [1]], [[0], [1]], [⟨0, 0⟩, ⟨1, 1⟩]⟩ : Graph).remove_edge
              ⟨1, 1⟩).1.insert_edge ⟨0, 1⟩).1.insert_edge ⟨1, 0⟩).1.number_of_edges
          = (⟨[[0], [1]], [[0], [1]], [⟨0, 0⟩, ⟨1, 1⟩]⟩ : Graph).number_of_edges + 1) :=
  ⟨rfl, rfl, c7_swap_increases ⟨[[0], [1]], [[0], [1]], [⟨0, 0⟩, ⟨1, 1⟩]⟩ ⟨0, 0⟩ ⟨1, 1⟩ rfl rfl⟩

end Bigs

namespace Bigs

/-- C8: `insert_edge` returns false without mutation on a present edge;
otherwise it adds the edge to all three structures, growing either
neighbor sequence by the difference up to the label plus one, filling
intermediate slots with empty neighbor sets, and returns true. -/
theorem c8_insert_edge_spec (g : Graph) (e : Edge) :
    (e ∈ g.edges → g.insert_edge e = (g, false))
    ∧ (e ∉ g.edges →
        (g.insert_edge e).2 = true
        ∧ (g.insert_edge e).1.edges = g.edges ++ [e]
        ∧ e.constraint ∈ (g.insert_edge e).1.varNbrs e.«variable»
        ∧ e.«variable» ∈ (g.insert_edge e).1.conNbrs e.constraint
        ∧ (g.insert_edge e).1.number_of_variables
            = max g.number_of_variables (e.«variable» + 1)
        ∧ (g.insert_edge e).1.number_of_constraints
            = max g.number_of_constraints (e.constraint + 1)
        ∧ (∀ k, g.number_of_variables ≤ k → k ≠ e.«variable» →
            (g.insert_edge e).1.varNbrs k = [])
        ∧ (∀ k, g.number_of_constraints ≤ k → k ≠ e.constraint →
            (g.insert_edge e).1.conNbrs k = [])) := by
  constructor
  · exact insert_edge_of_mem
  · intro h
    have hOOBv : ∀ k, g.number_of_variables ≤ k → g.varNbrs k = [] := by
      intro k hk
      rw [Graph.varNbrs, List.getD_eq_getElem?_getD, List.getElem?_eq_none hk]
      rfl
    have hOOBc : ∀ k, g.number_of_constraints ≤ k → g.conNbrs k = [] := by
      intro k hk
      rw [Graph.conNbrs, List.getD_eq_getElem?_getD, List.getElem?_eq_none hk]
      rfl
    refine ⟨insert_edge_snd_of_not_mem h, insert_edge_edges_of_not_mem h, ?_, ?_,
      insert_edge_num_vars h, insert_edge_num_cons h, ?_, ?_⟩
    · rw [insert_edge_varNbrs h, if_pos rfl, mem_isetInsert]
      exact Or.inr rfl
    · rw [insert_edge_conNbrs h, if_pos rfl, mem_isetInsert]
      exact Or.inr rfl
    · intro k hk hne
      rw [insert_edge_varNbrs h, if_neg hne, hOOBv k hk]
    · intro k hk hne
      rw [insert_edge_conNbrs h, if_neg hne, hOOBc k hk]

/-- Witness for C8: inserting into the empty graph. -/
theorem c8_insert_edge_spec_witness :
    ((⟨0, 0⟩ : Edge) ∉ Graph.new.edges)
    ∧ (Graph.new.insert_edge ⟨0, 0⟩).2 = true
    ∧ (Graph.new.insert_edge ⟨0, 0⟩).1.edges = Graph.new.edges ++ [⟨0, 0⟩] :=
  ⟨by decide, ((c8_insert_edge_spec Graph.new ⟨0, 0⟩).2 (by decide)).1,
    ((c8_insert_edge_spec Graph.new ⟨0, 0⟩).2 (by decide)).2.1⟩

/-- C9: `remove_edge` returns whether the edge was present; when present
it removes the edge from all three structures and decrements the edge
count by one; it never shrinks the node counts; on an absent edge it
changes nothing. -/
theorem c9_remove_edge_spec {g : Graph} (hg : g.WF) (e : Edge) :
    (g.remove_edge e).2 = g.contains_edge e
    ∧ g.number_of_variables ≤ (g.remove_edge e).1.number_of_variables
    ∧ g.number_of_constraints ≤ (g.remove_edge e).1.number_of_constraints
    ∧ (e ∈ g.edges →
        (g.remove_edge e).1.number_of_edges + 1 = g.number_of_edges
        ∧ e ∉ (g.remove_edge e).1.edges
        ∧ e.constraint ∉ (g.remove_edge e).1.varNbrs e.«variable»
        ∧ e.«variable» ∉ (g.remove_edge e).1.conNbrs e.constraint)
    ∧ (e ∉ g.edges → (g.remove_edge e).1 = g) := by
  refine ⟨?_, le_of_eq (remove_edge_num_vars g e).symm,
    le_of_eq (remove_edge_num_cons g e).symm, ?_, ?_⟩
  · by_cases h : e ∈ g.edges
    · exact (remove_edge_snd_of_mem h).trans ((contains_edge_iff g e).mpr h).symm
    · have hcf : g.contains_edge e = false := by
        rw [← Bool.not_eq_true, contains_edge_iff]
        exact h
      rw [remove_edge_of_not_mem h]
      exact hcf.symm
  · intro h
    have hbv := hg.var_lt e h
    have hbc := hg.con_lt e h
    have hcv : e.constraint ∈ g.varNbrs e.«variable» :=
      (hg.var_iff e.«variable» e.constraint).mpr (by cases e; exact h)
    have hvc : e.«variable» ∈ g.conNbrs e.constraint :=
      (hg.con_iff e.«variable» e.constraint).mpr (by cases e; exact h)
    refine ⟨?_, ?_, ?_, ?_⟩
    · rw [Graph.number_of_edges, Graph.number_of_edges, remove_edge_edges_of_mem h]
      exact swapRemove_length h
    · rw [remove_edge_edges_of_mem h, mem_swapRemove_iff hg.edges_nodup h]
      rintro ⟨-, hne⟩
      exact hne rfl
    · rw [remove_edge_varNbrs h hbv, if_pos rfl,
        mem_swapRemove_iff (hg.var_nodup e.«variable») hcv]
      rintro ⟨-, hne⟩
      exact hne rfl
    · rw [remove_edge_conNbrs h hbc, if_pos rfl,
        mem_swapRemove_iff (hg.con_nodup e.constraint) hvc]
      rintro ⟨-, hne⟩
      exact hne rfl
  · intro h
    rw [remove_edge_of_not_mem h]

/-- Witness for C9 at a concrete well-formed graph. -/
theorem c9_remove_edge_spec_witness :
    (Graph.new.insert_edge ⟨0, 0⟩).1.WF
    ∧ (((Graph.new.insert_edge ⟨0, 0⟩).1.remove_edge ⟨0, 0⟩).2
          = (Graph.new.insert_edge ⟨0, 0⟩).1.contains_edge ⟨0, 0⟩
        ∧ (Graph.new.insert_edge ⟨0, 0⟩).1.number_of_variables
          ≤ ((Graph.new.insert_edge ⟨0, 0⟩).1.remove_edge ⟨0, 0⟩).1.number_of_variables
        ∧ (Graph.new.insert_edge ⟨0, 0⟩).1.number_of_constraints
          ≤ ((Graph.new.insert_edge ⟨0, 0⟩).1.remove_edge ⟨0, 0⟩).1.number_of_constraints
        ∧ ((⟨0, 0⟩ : Edge) ∈ (Graph.new.insert_edge ⟨0, 0⟩).1.edges →
            ((Graph.new.insert_edge ⟨0, 0⟩).1.remove_edge ⟨0, 0⟩).1.number_of_edges + 1
              = (Graph.new.insert_edge ⟨0, 0⟩).1.number_of_edges
            ∧ (⟨0, 0⟩ : Edge) ∉ ((Graph.new.insert_edge ⟨0, 0⟩).1.remove_edge ⟨0, 0⟩).1.edges
            ∧ (0 : Nat) ∉ ((Graph.new.insert_edge ⟨0, 0⟩).1.remove_edge ⟨0, 0⟩).1.varNbrs 0
            ∧ (0 : Nat) ∉ ((Graph.new.insert_edge ⟨0, 0⟩).1.remove_edge ⟨0, 0⟩).1.conNbrs 0)
        ∧ ((⟨0, 0⟩ : Edge) ∉ (Graph.new.insert_edge ⟨0, 0⟩).1.edges →
            ((Graph.new.insert_edge ⟨0, 0⟩).1.remove_edge ⟨0, 0⟩).1
              = (Graph.new.insert_edge ⟨0, 0⟩).1)) :=
  ⟨wf_of_reachable (Graph.Reachable.insert ⟨0, 0⟩ Graph.Reachable.new),
    c9_remove_edge_spec (wf_of_reachable (Graph.Reachable.insert ⟨0, 0⟩ Graph.Reachable.new))
      ⟨0, 0⟩⟩

/-- C10: in every graph reachable through the public interface, the labels of each
edge are strictly within the bounds of the two neighbor
sequences, so the neighbor-sequence indexing of `insert_edge` and
`remove_edge` is always in bounds. -/
theorem c10_reachable_bounds {g : Graph} (hr : g.Reachable) :
    ∀ e ∈ g.edges, e.«variable» + 1 ≤ g.variable_neighbors.length
      ∧ e.constraint + 1 ≤ g.constraint_neighbors.length := by
  intro e he
  exact ⟨(wf_of_reachable hr).var_lt e he, (wf_of_reachable hr).con_lt e he⟩

/-- Witness for C10 at a concrete reachable graph. -/
theorem c10_reachable_bounds_witness :
    (Graph.new.insert_edge ⟨0, 0⟩).1.Reachable
    ∧ ((⟨0, 0⟩ : Edge) ∈ (Graph.new.insert_edge ⟨0, 0⟩).1.edges)
    ∧ ((0 : Nat) + 1 ≤ (Graph.new.insert_edge ⟨0, 0⟩).1.variable_neighbors.length
        ∧ (0 : Nat) + 1 ≤ (Graph.new.insert_edge ⟨0, 0⟩).1.constraint_neighbors.length) :=
  ⟨Graph.Reachable.insert ⟨0, 0⟩ Graph.Reachable.new, by decide,
    c10_reachable_bounds (Graph.Reachable.insert ⟨0, 0⟩ Graph.Reachable.new) ⟨0, 0⟩
      (by decide)⟩

end Bigs
